import Mathlib

/-!
# native_proc_reader.cpp : readers of `/proc` text files

A shallow embedding of the functions of `native_proc_reader.cpp`.

* A `std::string` is a list of characters (`Str`).  The files under `/proc`
  are text: they hold no NUL character, at which `c_str()` would end, so a
  string handed to `NewStringUTF` through `c_str()` is taken to be the
  returned Java string itself.
* A file that `std::ifstream` could not open is `none`; an opened file is
  `some content`.
* An exception thrown by the standard library (`std::out_of_range` from
  `substr`) is the `error` case of `Except`.
-/

set_option autoImplicit false

namespace NativeProcReader

/-- Text of a `std::string`. -/
abbrev Str := List Char

/-- C++ exceptions that the library calls of this file can throw. -/
inductive CppError where
  | outOfRange
  deriving DecidableEq, Repr

/-- Result of a JNI entry point: the returned value, or the exception that left it. -/
abbrev Result (α : Type) := Except CppError α

instance instDecEqResult {α : Type} [DecidableEq α] : DecidableEq (Result α)
  | .ok a, .ok b => if h : a = b then isTrue (by rw [h]) else isFalse (by intro e; cases e; exact h rfl)
  | .error a, .error b => if h : a = b then isTrue (by rw [h]) else isFalse (by intro e; cases e; exact h rfl)
  | .ok _, .error _ => isFalse (by intro e; cases e)
  | .error _, .ok _ => isFalse (by intro e; cases e)

/-- `s.substr(pos)`: throws `std::out_of_range` when `pos > s.size()`. -/
def substr (s : Str) (pos : Nat) : Result Str :=
  if pos > s.length then .error .outOfRange else .ok (s.drop pos)

/-- `s.substr(pos, n)`: throws when `pos > s.size()`, else at most `n` characters from `pos`. -/
def substrN (s : Str) (pos n : Nat) : Result Str :=
  if pos > s.length then .error .outOfRange else .ok ((s.drop pos).take n)

/-- `std::getline(file, line)` on the unread part of a stream: `none` when the
stream is at end of file (nothing extracted, the call is false), otherwise the
characters before the first newline and the unread part after that newline. -/
def getline (input : Str) : Option (Str × Str) :=
  match input with
  | [] => none
  | _ => some (input.takeWhile (fun c => c != '\n'), (input.dropWhile (fun c => c != '\n')).drop 1)

/-- `std::isspace` in the "C" locale. -/
def isspace (c : Char) : Bool :=
  c == ' ' || c == '\t' || c == '\n' || c == '\x0b' || c == '\x0c' || c == '\r'

/-- `iss >> token`: skip leading whitespace, then take characters up to the
next whitespace; `none` when no character is left (the extraction fails). -/
def extractToken (input : Str) : Option (Str × Str) :=
  match input.dropWhile isspace with
  | [] => none
  | c :: cs => some ((c :: cs).takeWhile (fun x => !isspace x), (c :: cs).dropWhile (fun x => !isspace x))

/-- Loop `while (iss >> token) tokens.push_back(token);` with a bound on the iterations. -/
def readTokens : Nat → Str → List Str
  | 0, _ => []
  | fuel + 1, input =>
    match extractToken input with
    | none => []
    | some (token, rest) => token :: readTokens fuel rest

/-- All tokens of a string stream: every extraction consumes a character, so
`length + 1` iterations reach the failing extraction. -/
def tokenize (s : Str) : List Str := readTokens (s.length + 1) s

/-- `line.rfind(c)`: index of the last occurrence, `none` for `npos`. -/
def rfind : Str → Char → Option Nat
  | [], _ => none
  | x :: xs, c =>
    match rfind xs c with
    | some i => some (i + 1)
    | none => if x = c then some 0 else none

/-- `stream << n` for a non-negative integer: decimal digits. -/
def showNat (n : Nat) : Str := Nat.toDigits 10 n

/-- `stream << z` for a signed integer (`jint`, `long`). -/
def showInt : Int → Str
  | .ofNat n => showNat n
  | .negSucc n => '-' :: showNat (n + 1)

/-- Path built by `path << "/proc/" << pid << "/stat"`. -/
def statPath (pid : Int) : Str := "/proc/".toList ++ showInt pid ++ "/stat".toList

/-- The file system as seen by `std::ifstream file(path)`: the content of the
file at a path, or `none` when it cannot be opened. -/
abbrev FileSystem := Str → Option Str

/-- `Java_..._readCpuStat`, given the state of `/proc/stat`. -/
def readCpuStat (file : Option Str) : Result Str :=
  match file with
  | none => .ok []
  | some content =>
    match getline content with
    | some (line, _) => do
      let tag ← substrN line 0 3
      if tag = "cpu".toList then
        let numbers ← substr line 4
        .ok numbers
      else .ok []
    | none => .ok []

/-- `Java_..._readProcessStat`, given the file system and the pid. -/
def readProcessStat (fs : FileSystem) (pid : Int) : Result Str :=
  match fs (statPath pid) with
  | none => .ok []
  | some content =>
    match getline content with
    | some (line, _) =>
      match rfind line ')' with
      | none => .ok []
      | some closeParenPos => do
        let afterName ← substr line (closeParenPos + 2)
        let tokens := tokenize afterName
        if tokens.length ≥ 13 then
          .ok (tokens.getD 11 [] ++ " ".toList ++ tokens.getD 12 [])
        else .ok []
    | none => .ok []

/-- One iteration of the loop of `batchReadProcessStats`: the slot `i` of
`result` is overwritten when the stat line of `pid` parses. -/
def batchStep (fs : FileSystem) (pid : Int) (i : Nat) (result : List Str) : Result (List Str) :=
  match fs (statPath pid) with
  | none => .ok result
  | some content =>
    match getline content with
    | some (line, _) =>
      match rfind line ')' with
      | some closeParenPos => do
        let afterName ← substr line (closeParenPos + 2)
        let tokens := tokenize afterName
        if tokens.length ≥ 13 then
          .ok (result.set i (showInt pid ++ " ".toList ++ tokens.getD 11 [] ++ " ".toList ++ tokens.getD 12 []))
        else .ok result
      | none => .ok result
    | none => .ok result

/-- Loop `for (i = 0; i < length; i++)` of `batchReadProcessStats`, entered with
the pids from index `i` on. -/
def batchLoop (fs : FileSystem) : List Int → Nat → List Str → Result (List Str)
  | [], _, result => .ok result
  | pid :: rest, i, result => do
    let result' ← batchStep fs pid i result
    batchLoop fs rest (i + 1) result'

/-- `Java_..._batchReadProcessStats`: the result array starts as `length`
empty strings. -/
def batchReadProcessStats (fs : FileSystem) (pids : List Int) : Result (List Str) :=
  batchLoop fs pids 0 (List.replicate pids.length [])

/-- `std::isdigit`: the decimal digits accepted by `%ld`. -/
def isdigit (c : Char) : Bool := decide ('0' ≤ c) && decide (c ≤ '9')

/-- Value of a run of decimal digits. -/
def digitsValue (ds : Str) : Nat := ds.foldl (fun acc c => 10 * acc + (c.toNat - 48)) 0

/-- Largest value of `long` (LP64). -/
def LONG_MAX : Int := 2 ^ 63 - 1

/-- Smallest value of `long` (LP64). -/
def LONG_MIN : Int := -(2 ^ 63)

/-- Conversion of an out-of-range numeral by `%ld`, which goes through
`strtol`: the value saturates at the ends of the range of `long`. -/
def clampLong (z : Int) : Int :=
  if z > LONG_MAX then LONG_MAX else if z < LONG_MIN then LONG_MIN else z

/-- The `%ld` conversion of `sscanf`: skip whitespace, read an optional sign
and a non-empty run of digits; `none` is a matching failure (nothing is
assigned). -/
def scanLong (input : Str) : Option Int :=
  let s := input.dropWhile isspace
  let body := if s.head? = some '-' ∨ s.head? = some '+' then s.drop 1 else s
  let ds := body.takeWhile isdigit
  if ds = [] then none
  else if s.head? = some '-' then some (clampLong (-(digitsValue ds : Int)))
  else some (clampLong (digitsValue ds : Int))

/-- `sscanf(line.c_str(), "<field> %ld kB", &var)`: the literal text of the
format must match, the blank of the format skips whitespace, then `%ld`
converts; `var` keeps its old value unless the conversion succeeds.  The
` kB` after the conversion assigns nothing. -/
def sscanfLong (field : Str) (line : Str) (old : Int) : Int :=
  if field.isPrefixOf line then
    match scanLong ((line.drop field.length).dropWhile isspace) with
    | some v => v
    | none => old
  else old

/-- Local variables of `readMemInfo`. -/
structure MemCounters where
  memTotal : Int
  memFree : Int
  memAvailable : Int
  found : Nat
  deriving DecidableEq, Repr

/-- Body of the `while` loop of `readMemInfo` for one line. -/
def memInfoStep (st : MemCounters) (line : Str) : MemCounters :=
  if "MemTotal:".toList.isPrefixOf line then
    { st with memTotal := sscanfLong "MemTotal:".toList line st.memTotal, found := st.found + 1 }
  else if "MemFree:".toList.isPrefixOf line then
    { st with memFree := sscanfLong "MemFree:".toList line st.memFree, found := st.found + 1 }
  else if "MemAvailable:".toList.isPrefixOf line then
    { st with memAvailable := sscanfLong "MemAvailable:".toList line st.memAvailable, found := st.found + 1 }
  else st

/-- Loop `while (std::getline(file, line) && found < 3)` with a bound on the
iterations; `input` is the unread part of the file. -/
def memInfoLoop : Nat → Str → MemCounters → MemCounters
  | 0, _, st => st
  | fuel + 1, input, st =>
    match getline input with
    | none => st
    | some (line, rest) =>
      if st.found < 3 then memInfoLoop fuel rest (memInfoStep st line) else st

/-- `Java_..._readMemInfo`, given the state of `/proc/meminfo`.  Every
successful `getline` consumes a character, so `length + 1` iterations reach
the end of the file. -/
def readMemInfo (file : Option Str) : Result Str :=
  match file with
  | none => .ok []
  | some content =>
    let st := memInfoLoop (content.length + 1) content ⟨0, 0, 0, 0⟩
    .ok (showInt st.memTotal ++ " ".toList ++ showInt st.memFree ++ " ".toList ++ showInt st.memAvailable)

/-- Lines that successive calls of `std::getline` deliver, with a bound on the calls. -/
def readLines : Nat → Str → List Str
  | 0, _ => []
  | fuel + 1, input =>
    match getline input with
    | none => []
    | some (line, rest) => line :: readLines fuel rest

/-- All lines of a file, as `std::getline` delivers them up to end of file. -/
def allLines (content : Str) : List Str := readLines (content.length + 1) content

/-- The loop of `readMemInfo` over the lines that `std::getline` delivers. -/
def scanLines : List Str → MemCounters → MemCounters
  | [], st => st
  | line :: rest, st => if st.found < 3 then scanLines rest (memInfoStep st line) else st

/-- A line that starts with one of the three prefixes tested by `readMemInfo`. -/
def isMemField (line : Str) : Bool :=
  "MemTotal:".toList.isPrefixOf line || "MemFree:".toList.isPrefixOf line
    || "MemAvailable:".toList.isPrefixOf line

/-- Text of a field sequence: each field is written as its separator followed by its token. -/
def renderFields : List (Str × Str) → Str
  | [] => []
  | p :: ps => p.1 ++ (p.2 ++ renderFields ps)

/-- A field of a stat line: a non-empty whitespace separator, then a
non-empty token without whitespace and without `)`. -/
def WellFormedField (p : Str × Str) : Prop :=
  p.1 ≠ [] ∧ (∀ c ∈ p.1, isspace c = true) ∧ p.2 ≠ [] ∧ (∀ c ∈ p.2, isspace c = false ∧ c ≠ ')')

instance instDecidableWellFormedField (p : Str × Str) : Decidable (WellFormedField p) := by
  unfold WellFormedField
  infer_instance

/-- Slot that the batch contract gives to a pid, from the result `r` of the
single-process reader: empty when `r` is empty, else the decimal pid, a space
and `r`. -/
def batchSlot (pid : Int) (r : Str) : Str :=
  if r = [] then [] else showInt pid ++ " ".toList ++ r

/-- Stat file of pid 7 whose line ends at the closing parenthesis. -/
def fsNameOnly : FileSystem :=
  fun path => if path = "/proc/7/stat".toList then some "7 (a)\n".toList else none

/-- Stat file of pid 123 whose command name holds a `)`. -/
def fsParenName : FileSystem :=
  fun path => if path = "/proc/123/stat".toList
    then some "123 (my)proc) S 0 1 2 3 4 5 6 7 8 9 10 11 12 13 \n".toList else none

/-- Stat file of pid 5 in which a one-character token follows the `)` directly. -/
def fsAdjacent : FileSystem :=
  fun path => if path = "/proc/5/stat".toList
    then some "5 (a)0 1 2 3 4 5 6 7 8 9 10 11 12\n".toList else none

/-- Stat files of pids 111 and 333; pid 222 has none. -/
def fsThree : FileSystem :=
  fun path =>
    if path = "/proc/111/stat".toList then
      some "111 (init) S 0 1 2 3 4 5 6 7 8 9 10 11 12 13\n".toList
    else if path = "/proc/333/stat".toList then
      some "333 (b c) R 0 1 2 3 4 5 6 7 8 9 20 21 12 13\n".toList
    else none

/-- The three prefixes that `readMemInfo` tests. -/
def memFieldNames : List Str :=
  ["MemTotal:".toList, "MemFree:".toList, "MemAvailable:".toList]

/-- Stat file of pid 8 whose fields after the name are words, not numbers. -/
def fsWordFields : FileSystem :=
  fun path => if path = "/proc/8/stat".toList
    then some "8 (sh) S a b c d e f g h i j user sys\n".toList else none

/-- Stat file of pid 9 in which two characters follow the `)` directly. -/
def fsAdjacentWord : FileSystem :=
  fun path => if path = "/proc/9/stat".toList
    then some "9 (a)xy 1 2 3 4 5 6 7 8 9 10 11 12 13\n".toList else none

/-- Stat files of pid 111, a complete line, and of pid 7, a line that ends at
the closing parenthesis. -/
def fsMixed : FileSystem :=
  fun path =>
    if path = "/proc/111/stat".toList then
      some "111 (init) S 0 1 2 3 4 5 6 7 8 9 10 11 12 13\n".toList
    else if path = "/proc/7/stat".toList then some "7 (a)\n".toList
    else none

/-! # Theorems -/

/-! ## The loop bounds are never reached -/

theorem length_dropWhile_le (p : Char → Bool) (s : Str) : (s.dropWhile p).length ≤ s.length :=
  (List.dropWhile_suffix p).length_le

theorem getline_length (input line rest : Str) (h : getline input = some (line, rest)) :
    rest.length < input.length := by
  cases input with
  | nil => simp [getline] at h
  | cons c cs =>
    simp only [getline, Option.some.injEq, Prod.mk.injEq] at h
    rw [← h.2]
    have hle := length_dropWhile_le (fun c => c != '\n') (c :: cs)
    cases hd : (c :: cs).dropWhile (fun c => c != '\n') with
    | nil => simp
    | cons d ds =>
      rw [hd] at hle
      simp only [List.drop_succ_cons, List.drop_zero, List.length_cons] at hle ⊢
      omega

theorem extractToken_length (input token rest : Str) (h : extractToken input = some (token, rest)) :
    rest.length < input.length := by
  unfold extractToken at h
  have hle := length_dropWhile_le isspace input
  have hhead := List.head?_dropWhile_not isspace input
  cases hd : input.dropWhile isspace with
  | nil => rw [hd] at h; cases h
  | cons c cs =>
    rw [hd] at h hle hhead
    simp only [List.head?_cons] at hhead
    simp only [Option.some.injEq, Prod.mk.injEq] at h
    rw [← h.2, List.dropWhile_cons, if_pos (by simp [hhead])]
    have := length_dropWhile_le (fun x => !isspace x) cs
    simp only [List.length_cons] at hle
    omega

/-- Any two bounds above the length of the stream give the same tokens: the
loop of `tokenize` ends by a failed extraction, not by its bound. -/
theorem readTokens_fuel : ∀ (f1 f2 : Nat) (s : Str), s.length < f1 → s.length < f2 →
    readTokens f1 s = readTokens f2 s := by
  intro f1
  induction f1 with
  | zero => intro f2 s h1; omega
  | succ n ih =>
    intro f2 s h1 h2
    obtain ⟨m, rfl⟩ : ∃ m, f2 = m + 1 := ⟨f2 - 1, by omega⟩
    cases hx : extractToken s with
    | none => simp [readTokens, hx]
    | some tr =>
      obtain ⟨token, rest⟩ := tr
      have hlt := extractToken_length s token rest hx
      simp only [readTokens, hx]
      rw [ih m rest (by omega) (by omega)]

/-- Any two bounds above the length of the file give the same lines. -/
theorem readLines_fuel : ∀ (f1 f2 : Nat) (s : Str), s.length < f1 → s.length < f2 →
    readLines f1 s = readLines f2 s := by
  intro f1
  induction f1 with
  | zero => intro f2 s h1; omega
  | succ n ih =>
    intro f2 s h1 h2
    obtain ⟨m, rfl⟩ : ∃ m, f2 = m + 1 := ⟨f2 - 1, by omega⟩
    cases hx : getline s with
    | none => simp [readLines, hx]
    | some lr =>
      obtain ⟨line, rest⟩ := lr
      have hlt := getline_length s line rest hx
      simp only [readLines, hx]
      rw [ih m rest (by omega) (by omega)]

/-- Any two bounds above the length of the file give the same counters: the
loop of `readMemInfo` ends at end of file or by `found < 3`, not by its bound. -/
theorem memInfoLoop_fuel : ∀ (f1 f2 : Nat) (s : Str) (st : MemCounters),
    s.length < f1 → s.length < f2 → memInfoLoop f1 s st = memInfoLoop f2 s st := by
  intro f1
  induction f1 with
  | zero => intro f2 s st h1; omega
  | succ n ih =>
    intro f2 s st h1 h2
    obtain ⟨m, rfl⟩ : ∃ m, f2 = m + 1 := ⟨f2 - 1, by omega⟩
    cases hx : getline s with
    | none => simp [memInfoLoop, hx]
    | some lr =>
      obtain ⟨line, rest⟩ := lr
      have hlt := getline_length s line rest hx
      simp only [memInfoLoop, hx]
      rw [ih m rest _ (by omega) (by omega)]

/-! ## Aggregate CPU reader -/

theorem substrN_zero (s : Str) (n : Nat) : substrN s 0 n = .ok (s.take n) := by
  simp [substrN]

theorem substr_of_le (s : Str) (pos : Nat) (h : pos ≤ s.length) : substr s pos = .ok (s.drop pos) := by
  simp [substr, Nat.not_lt.mpr h]

theorem substr_of_gt (s : Str) (pos : Nat) (h : s.length < pos) : substr s pos = .error .outOfRange := by
  simp [substr, h]

theorem rfind_eq_none (s : Str) (c : Char) : rfind s c = none ↔ c ∉ s := by
  induction s with
  | nil => simp [rfind]
  | cons x xs ih =>
    simp only [rfind, List.mem_cons, not_or]
    cases h : rfind xs c with
    | none =>
      have hx := ih.mp h
      by_cases hxc : x = c
      · simp [hxc]
      · simp [hxc, hx, Ne.symm hxc]
    | some i =>
      have hx : ¬ c ∉ xs := fun hn => by rw [ih.mpr hn] at h; cases h
      simp [hx]

/-- C6: when the first line of `/proc/stat` is `cpu`, one separator character
and then `numbers`, `readCpuStat` returns exactly `numbers` (the first line
without its first four characters), whatever `numbers` holds. -/
theorem readCpuStat_returns_remainder (content rest numbers : Str) (sep : Char)
    (hline : getline content = some ("cpu".toList ++ sep :: numbers, rest)) :
    readCpuStat (some content) = .ok numbers := by
  simp only [readCpuStat, hline, substrN_zero]
  have htake : ("cpu".toList ++ sep :: numbers).take 3 = "cpu".toList := by
    simp [List.take]
  have hsub : substr ("cpu".toList ++ sep :: numbers) 4 = .ok numbers := by
    rw [substr_of_le _ _ (by simp)]
    simp
  simp only [htake, hsub]
  rfl

theorem readCpuStat_returns_remainder_witness :
    readCpuStat (some "cpu  10 20 30 40 50 60 70 80 90 100\ncpu0 1 2 3\n".toList)
      = .ok " 10 20 30 40 50 60 70 80 90 100".toList :=
  readCpuStat_returns_remainder _ "cpu0 1 2 3\n".toList _ ' ' (by decide)

/-- C7: `readCpuStat` returns the empty string when `/proc/stat` cannot be
opened, when it has no first line, and when the first three characters of its
first line are not `cpu`, whatever the later lines hold. -/
theorem readCpuStat_empty_result (content line rest : Str) :
    readCpuStat none = .ok [] ∧
    readCpuStat (some []) = .ok [] ∧
    (getline content = some (line, rest) → line.take 3 ≠ "cpu".toList →
      readCpuStat (some content) = .ok []) := by
  refine ⟨rfl, rfl, ?_⟩
  intro hline htag
  simp only [readCpuStat, hline, substrN_zero]
  show (if line.take 3 = "cpu".toList then _ else _) = _
  rw [if_neg htag]

theorem readCpuStat_empty_result_witness :
    readCpuStat (some "intr 5 6\ncpu  1 2 3 4\n".toList) = .ok [] :=
  (readCpuStat_empty_result "intr 5 6\ncpu  1 2 3 4\n".toList "intr 5 6".toList
    "cpu  1 2 3 4\n".toList).2.2 (by decide) (by decide)

/-- C8: on a `/proc/stat` whose first line is exactly `cpu`, `readCpuStat`
returns no string: `line.substr(4)` throws `std::out_of_range`. -/
theorem readCpuStat_throws_on_bare_tag :
    readCpuStat (some "cpu\n".toList) = .error .outOfRange ∧
    readCpuStat (some "cpu".toList) = .error .outOfRange := by
  decide

/-! ## Process accounting reader -/

theorem readProcessStat_unopened (fs : FileSystem) (pid : Int) (h : fs (statPath pid) = none) :
    readProcessStat fs pid = .ok [] := by
  simp [readProcessStat, h]

/-- C3: `readProcessStat` returns the empty string when the stat file cannot
be opened, when it holds no line, and when its first line has no `)`. -/
theorem readProcessStat_empty_cases (fs : FileSystem) (pid : Int) (content line rest : Str) :
    (fs (statPath pid) = none → readProcessStat fs pid = .ok []) ∧
    (fs (statPath pid) = some [] → readProcessStat fs pid = .ok []) ∧
    (fs (statPath pid) = some content → getline content = some (line, rest) → ')' ∉ line →
      readProcessStat fs pid = .ok []) := by
  refine ⟨?_, ?_, ?_⟩
  · intro h
    simp [readProcessStat, h]
  · intro h
    simp [readProcessStat, h, getline]
  · intro h hline hparen
    simp [readProcessStat, h, hline, (rfind_eq_none line ')').mpr hparen]

theorem readProcessStat_empty_cases_witness :
    readProcessStat (fun path => if path = "/proc/42/stat".toList then some "42 no paren here\n".toList else none) 42
      = .ok [] :=
  (readProcessStat_empty_cases _ 42 "42 no paren here\n".toList "42 no paren here".toList []).2.2
    (by decide) (by decide) (by decide)

/-- When at least one character follows the last `)` and the text from two
positions after it holds fewer than 13 tokens, the result is the empty string. -/
theorem readProcessStat_few_tokens (fs : FileSystem) (pid : Int) (content line rest : Str) (k : Nat)
    (hopen : fs (statPath pid) = some content) (hline : getline content = some (line, rest))
    (hparen : rfind line ')' = some k) (hlen : k + 2 ≤ line.length)
    (hcount : (tokenize (line.drop (k + 2))).length < 13) :
    readProcessStat fs pid = .ok [] := by
  simp only [readProcessStat, hopen, hline, hparen, substr_of_le line (k + 2) hlen]
  show (if (tokenize (line.drop (k + 2))).length ≥ 13 then _ else _) = _
  rw [if_neg (by omega)]

/-- C2: on a stat line that ends at the `)` (no token after the name),
`readProcessStat` returns no string, and neither does the batch reader:
`line.substr(closeParenPos + 2)` throws `std::out_of_range`. -/
theorem readProcessStat_throws_on_line_ending_at_paren :
    fsNameOnly (statPath 7) = some "7 (a)\n".toList ∧
    getline "7 (a)\n".toList = some ("7 (a)".toList, []) ∧
    rfind "7 (a)".toList ')' = some 4 ∧
    tokenize ("7 (a)".toList.drop 5) = [] ∧
    readProcessStat fsNameOnly 7 = .error .outOfRange ∧
    batchReadProcessStats fsNameOnly [7] = .error .outOfRange := by
  decide

theorem rfind_append_cons (before after : Str) (c : Char) (h : c ∉ after) :
    rfind (before ++ c :: after) c = some before.length := by
  induction before with
  | nil => simp [rfind, (rfind_eq_none after c).mpr h]
  | cons a as ih => simp [rfind, ih]

theorem dropWhile_append_all {p : Char → Bool} (ws r : Str) (h : ∀ c ∈ ws, p c = true) :
    (ws ++ r).dropWhile p = r.dropWhile p := by
  induction ws with
  | nil => rfl
  | cons a as ih =>
    have ha : p a = true := h a (List.mem_cons_self _ _)
    simp only [List.cons_append, List.dropWhile_cons, ha, if_true]
    exact ih (fun c hc => h c (List.mem_cons_of_mem _ hc))

theorem takeWhile_append_stop {p : Char → Bool} (t r : Str) (ht : ∀ c ∈ t, p c = true)
    (hr : ∀ c ∈ r.head?, p c = false) : (t ++ r).takeWhile p = t := by
  induction t with
  | nil =>
    cases r with
    | nil => rfl
    | cons b bs => simp [List.takeWhile_cons, hr b (by simp)]
  | cons a as ih =>
    have ha : p a = true := ht a (List.mem_cons_self _ _)
    simp only [List.cons_append, List.takeWhile_cons, ha, if_true]
    rw [ih (fun c hc => ht c (List.mem_cons_of_mem _ hc))]

theorem dropWhile_append_stop {p : Char → Bool} (t r : Str) (ht : ∀ c ∈ t, p c = true)
    (hr : ∀ c ∈ r.head?, p c = false) : (t ++ r).dropWhile p = r := by
  rw [dropWhile_append_all t r ht]
  cases r with
  | nil => rfl
  | cons b bs => simp [List.dropWhile_cons, hr b (by simp)]

/-- One extraction: leading whitespace is skipped and the token ends at the next whitespace. -/
theorem extractToken_field (ws t r : Str) (hws : ∀ c ∈ ws, isspace c = true)
    (ht : ∀ c ∈ t, isspace c = false) (hne : t ≠ [])
    (hr : ∀ c ∈ r.head?, isspace c = true) :
    extractToken (ws ++ (t ++ r)) = some (t, r) := by
  have htake : (t ++ r).takeWhile (fun x => !isspace x) = t :=
    takeWhile_append_stop t r (fun c hc => by simp [ht c hc]) (fun c hc => by simp [hr c hc])
  have hdrop : (t ++ r).dropWhile (fun x => !isspace x) = r :=
    dropWhile_append_stop t r (fun c hc => by simp [ht c hc]) (fun c hc => by simp [hr c hc])
  unfold extractToken
  rw [dropWhile_append_all ws _ hws]
  cases t with
  | nil => exact absurd rfl hne
  | cons a as =>
    have ha : isspace a = false := ht a (List.mem_cons_self _ _)
    have hd : ((a :: as) ++ r).dropWhile isspace = a :: (as ++ r) := by
      simp [List.dropWhile_cons, ha]
    rw [hd]
    simp only [List.cons_append] at htake hdrop
    simp only [htake, hdrop]

theorem extractToken_blank (s : Str) (h : ∀ c ∈ s, isspace c = true) : extractToken s = none := by
  have hd : s.dropWhile isspace = [] := by
    have := dropWhile_append_all (p := isspace) s [] h
    simpa using this
  simp [extractToken, hd]

theorem readTokens_blank (fuel : Nat) (s : Str) (h : ∀ c ∈ s, isspace c = true) :
    readTokens fuel s = [] := by
  cases fuel with
  | zero => rfl
  | succ n => simp [readTokens, extractToken_blank s h]

theorem head_renderFields_blank (fields : List (Str × Str)) (trail : Str)
    (hf : ∀ p ∈ fields, WellFormedField p) (htrail : ∀ c ∈ trail, isspace c = true) :
    ∀ c ∈ (renderFields fields ++ trail).head?, isspace c = true := by
  cases fields with
  | nil =>
    intro c hc
    simp only [renderFields, List.nil_append] at hc
    cases trail with
    | nil => simp at hc
    | cons b bs =>
      simp at hc
      subst hc
      exact htrail _ (List.mem_cons_self _ _)
  | cons p ps =>
    intro c hc
    obtain ⟨h1, h2, _, _⟩ := hf p (List.mem_cons_self _ _)
    cases hp : p.1 with
    | nil => exact absurd hp h1
    | cons b bs =>
      simp [renderFields, hp] at hc
      subst hc
      exact h2 _ (by rw [hp]; exact List.mem_cons_self _ _)

theorem readTokens_fields (fields : List (Str × Str)) (trail : Str)
    (hf : ∀ p ∈ fields, WellFormedField p) (htrail : ∀ c ∈ trail, isspace c = true) :
    ∀ (fuel : Nat) (ws t : Str), fields.length + 1 ≤ fuel → (∀ c ∈ ws, isspace c = true) →
      (∀ c ∈ t, isspace c = false) → t ≠ [] →
      readTokens fuel (ws ++ (t ++ (renderFields fields ++ trail))) = t :: fields.map Prod.snd := by
  induction fields with
  | nil =>
    intro fuel ws t hfuel hws ht hne
    obtain ⟨n, rfl⟩ : ∃ n, fuel = n + 1 := ⟨fuel - 1, by simp at hfuel; omega⟩
    have hx := extractToken_field ws t (renderFields [] ++ trail) hws ht hne
      (head_renderFields_blank [] trail (by simp) htrail)
    simp only [readTokens, hx]
    simp [renderFields, readTokens_blank n trail htrail]
  | cons p ps ih =>
    intro fuel ws t hfuel hws ht hne
    obtain ⟨n, rfl⟩ : ∃ n, fuel = n + 1 := ⟨fuel - 1, by simp at hfuel; omega⟩
    have hx := extractToken_field ws t (renderFields (p :: ps) ++ trail) hws ht hne
      (head_renderFields_blank (p :: ps) trail hf htrail)
    simp only [readTokens, hx]
    obtain ⟨_, h2, h3, h4⟩ := hf p (List.mem_cons_self _ _)
    have hrec := ih (fun q hq => hf q (List.mem_cons_of_mem _ hq)) n p.1 p.2
      (by simp at hfuel ⊢; omega) h2 (fun c hc => (h4 c hc).1) h3
    simp only [renderFields, List.append_assoc, List.map_cons]
    rw [hrec]

theorem length_le_renderFields (fields : List (Str × Str)) (hf : ∀ p ∈ fields, WellFormedField p) :
    fields.length ≤ (renderFields fields).length := by
  induction fields with
  | nil => simp
  | cons p ps ih =>
    obtain ⟨h1, _, _, _⟩ := hf p (List.mem_cons_self _ _)
    have hpos : 0 < p.1.length := List.length_pos.mpr h1
    have := ih (fun q hq => hf q (List.mem_cons_of_mem _ hq))
    simp only [renderFields, List.length_append, List.length_cons]
    omega

theorem not_mem_renderFields (fields : List (Str × Str)) (trail : Str)
    (hf : ∀ p ∈ fields, WellFormedField p) (htrail : ∀ c ∈ trail, isspace c = true) :
    ')' ∉ renderFields fields ++ trail := by
  have hsp : ∀ c, isspace c = true → c ≠ ')' := by
    intro c hc h
    subst h
    exact absurd hc (by decide)
  induction fields with
  | nil =>
    intro h
    simp only [renderFields, List.nil_append] at h
    exact hsp _ (htrail _ h) rfl
  | cons p ps ih =>
    obtain ⟨_, h2, _, h4⟩ := hf p (List.mem_cons_self _ _)
    intro h
    simp only [renderFields, List.append_assoc, List.mem_append] at h
    rcases h with h | h | h
    · exact hsp _ (h2 _ h) rfl
    · exact (h4 _ h).2 rfl
    · exact ih (fun q hq => hf q (List.mem_cons_of_mem _ hq)) (List.mem_append.mpr h)

/-- Tokens that the reader sees after the name of a well-formed line. -/
theorem tokenize_after_name (fields : List (Str × Str)) (trail : Str)
    (hf : ∀ p ∈ fields, WellFormedField p) (htrail : ∀ c ∈ trail, isspace c = true)
    (hne : fields ≠ []) :
    tokenize ((renderFields fields ++ trail).drop 1) = fields.map Prod.snd := by
  cases fields with
  | nil => exact absurd rfl hne
  | cons p ps =>
    obtain ⟨h1, h2, h3, h4⟩ := hf p (List.mem_cons_self _ _)
    have hps : ∀ q ∈ ps, WellFormedField q := fun q hq => hf q (List.mem_cons_of_mem _ hq)
    cases hp : p.1 with
    | nil => exact absurd hp h1
    | cons b bs =>
      have hbs : ∀ c ∈ bs, isspace c = true := fun c hc => h2 c (by rw [hp]; exact List.mem_cons_of_mem _ hc)
      have hshape : (renderFields (p :: ps) ++ trail).drop 1 = bs ++ (p.2 ++ (renderFields ps ++ trail)) := by
        simp [renderFields, hp]
      rw [hshape, tokenize]
      have hlen := length_le_renderFields ps hps
      rw [readTokens_fields ps trail hps htrail _ bs p.2 (by simp; omega) hbs
        (fun c hc => (h4 c hc).1) h3]
      simp

/-- C1: on a stat line `<pid> (<name>) t0 t1 ... tk` with at least 13 tokens
after the name, each token non-empty and free of whitespace and `)`, each
preceded by whitespace, `readProcessStat` returns `t11 ++ " " ++ t12`
whatever the name holds (spaces and parentheses included): the name ends at
the rightmost `)`. -/
theorem readProcessStat_rightmost_paren (fs : FileSystem) (pid : Int)
    (content rest pidText name trail : Str) (fields : List (Str × Str))
    (hopen : fs (statPath pid) = some content)
    (hline : getline content
      = some (pidText ++ " (".toList ++ name ++ ')' :: (renderFields fields ++ trail), rest))
    (hfields : ∀ p ∈ fields, WellFormedField p)
    (htrail : ∀ c ∈ trail, isspace c = true)
    (hcount : 13 ≤ fields.length) :
    readProcessStat fs pid
      = .ok ((fields.map Prod.snd).getD 11 [] ++ " ".toList ++ (fields.map Prod.snd).getD 12 []) := by
  have hne : fields ≠ [] := by
    intro h
    rw [h] at hcount
    simp at hcount
  have hparen := rfind_append_cons (pidText ++ " (".toList ++ name) (renderFields fields ++ trail) ')'
    (not_mem_renderFields fields trail hfields htrail)
  have hpos : 0 < (renderFields fields).length :=
    Nat.lt_of_lt_of_le (List.length_pos.mpr hne) (length_le_renderFields fields hfields)
  have hsub : substr (pidText ++ " (".toList ++ name ++ ')' :: (renderFields fields ++ trail))
      ((pidText ++ " (".toList ++ name).length + 2)
      = .ok ((renderFields fields ++ trail).drop 1) := by
    rw [substr_of_le _ _ (by simp only [List.length_append, List.length_cons]; omega)]
    congr 1
    rw [show (pidText ++ " (".toList ++ name).length + 2 = (pidText ++ " (".toList ++ name).length + 1 + 1 from rfl,
      ← List.drop_drop]
    congr 1
    rw [show (pidText ++ " (".toList ++ name).length + 1 = (pidText ++ " (".toList ++ name ++ [')']).length by
      rw [List.length_append (pidText ++ " (".toList ++ name) [')']]; rfl]
    rw [show pidText ++ " (".toList ++ name ++ ')' :: (renderFields fields ++ trail)
      = (pidText ++ " (".toList ++ name ++ [')']) ++ (renderFields fields ++ trail) by simp]
    exact List.drop_left _ _
  simp only [readProcessStat, hopen, hline, hparen, hsub]
  have htok := tokenize_after_name fields trail hfields htrail hne
  show (if (tokenize ((renderFields fields ++ trail).drop 1)).length ≥ 13 then _ else _) = _
  rw [htok, if_pos (by simpa using hcount)]

theorem readProcessStat_rightmost_paren_witness :
    readProcessStat fsParenName 123 = .ok "10 11".toList :=
  readProcessStat_rightmost_paren fsParenName 123
    "123 (my)proc) S 0 1 2 3 4 5 6 7 8 9 10 11 12 13 \n".toList [] "123".toList "my)proc".toList
    " ".toList
    [(" ".toList, "S".toList), (" ".toList, "0".toList), (" ".toList, "1".toList),
     (" ".toList, "2".toList), (" ".toList, "3".toList), (" ".toList, "4".toList),
     (" ".toList, "5".toList), (" ".toList, "6".toList), (" ".toList, "7".toList),
     (" ".toList, "8".toList), (" ".toList, "9".toList), (" ".toList, "10".toList),
     (" ".toList, "11".toList), (" ".toList, "12".toList), (" ".toList, "13".toList)]
    (by decide) (by decide) (by decide) (by decide) (by decide)

/-! ## Batch reader -/

theorem except_map_ok {α β : Type} (f : α → β) (a : α) :
    (Except.ok a : Result α).map f = .ok (f a) := rfl

theorem except_map_error {α β : Type} (f : α → β) (e : CppError) :
    (Except.error e : Result α).map f = .error e := rfl

theorem except_bind_ok {α β : Type} (f : α → Result β) (a : α) :
    ((Except.ok a : Result α) >>= f) = f a := rfl

theorem except_bind_error {α β : Type} (f : α → Result β) (e : CppError) :
    ((Except.error e : Result α) >>= f) = .error e := rfl

/-- One iteration of the batch loop, expressed through the single-process reader. -/
theorem batchStep_eq (fs : FileSystem) (pid : Int) (i : Nat) (result : List Str) :
    batchStep fs pid i result
      = (readProcessStat fs pid).map (fun r =>
          if r = [] then result else result.set i (showInt pid ++ " ".toList ++ r)) := by
  cases hopen : fs (statPath pid) with
  | none => simp [batchStep, readProcessStat, hopen, except_map_ok]
  | some content =>
    cases hline : getline content with
    | none => simp [batchStep, readProcessStat, hopen, hline, except_map_ok]
    | some lr =>
      obtain ⟨line, rest⟩ := lr
      cases hparen : rfind line ')' with
      | none => simp [batchStep, readProcessStat, hopen, hline, hparen, except_map_ok]
      | some k =>
        cases hsub : substr line (k + 2) with
        | error e =>
          simp only [batchStep, readProcessStat, hopen, hline, hparen, hsub, except_bind_error,
            except_map_error]
        | ok afterName =>
          simp only [batchStep, readProcessStat, hopen, hline, hparen, hsub, except_bind_ok]
          by_cases hlen : (tokenize afterName).length ≥ 13
          · rw [if_pos hlen, if_pos hlen, except_map_ok]
            have hne : ¬ ((tokenize afterName).getD 11 [] ++ " ".toList
                ++ (tokenize afterName).getD 12 [] = []) := by simp
            rw [if_neg hne]
            simp only [List.append_assoc]
          · rw [if_neg hlen, if_neg hlen, except_map_ok, if_pos rfl]

theorem batchLoop_eq (fs : FileSystem) (pids : List Int) :
    ∀ (done : List Str),
      batchLoop fs pids done.length (done ++ List.replicate pids.length [])
        = (pids.mapM (fun pid => (readProcessStat fs pid).map (batchSlot pid))).map
            (fun out => done ++ out) := by
  induction pids with
  | nil =>
    intro done
    rw [List.mapM_nil]
    simp [batchLoop, except_map_ok, pure, Except.pure]
  | cons pid rest ih =>
    intro done
    rw [List.mapM_cons, batchLoop, batchStep_eq]
    cases hr : readProcessStat fs pid with
    | error e => simp only [except_map_error, except_bind_error]
    | ok r =>
      have hres : (if r = [] then done ++ List.replicate (pid :: rest).length []
            else (done ++ List.replicate (pid :: rest).length []).set done.length
              (showInt pid ++ " ".toList ++ r))
          = (done ++ [batchSlot pid r]) ++ List.replicate rest.length [] := by
        unfold batchSlot
        by_cases hempty : r = []
        · simp [hempty, List.replicate_succ]
        · simp [hempty, List.replicate_succ]
      have hlen : done.length + 1 = (done ++ [batchSlot pid r]).length := by simp
      simp only [except_map_ok, except_bind_ok]
      rw [hres, hlen, ih (done ++ [batchSlot pid r])]
      cases hm : rest.mapM (fun pid => (readProcessStat fs pid).map (batchSlot pid)) with
      | error e => simp only [except_map_error, except_bind_error]
      | ok out =>
        simp only [except_map_ok, except_bind_ok, pure, Except.pure, List.append_assoc,
          List.singleton_append]

theorem batchReadProcessStats_mapM (fs : FileSystem) (pids : List Int) :
    batchReadProcessStats fs pids
      = pids.mapM (fun pid => (readProcessStat fs pid).map (batchSlot pid)) := by
  have h := batchLoop_eq fs pids []
  simp only [List.length_nil, List.nil_append] at h
  rw [batchReadProcessStats, h]
  cases pids.mapM (fun pid => (readProcessStat fs pid).map (batchSlot pid)) with
  | error e => rfl
  | ok out => rfl

/-- C5: for the pids `[111, 7]`, where the stat line of pid 7 is `7 (a)`,
`readProcessStat` returns `10 11` for pid 111 but the batch call returns no
array at all, so pid 111 has no slot `111 10 11`: the `std::out_of_range`
thrown while pid 7 is parsed leaves `batchReadProcessStats`.  Without pid 7
the slot of pid 111 is `111 10 11`. -/
theorem batchReadProcessStats_loses_slots_on_throw :
    readProcessStat fsMixed 111 = .ok "10 11".toList ∧
    readProcessStat fsMixed 7 = .error .outOfRange ∧
    batchReadProcessStats fsMixed [111, 7] = .error .outOfRange ∧
    batchReadProcessStats fsMixed [7] = .error .outOfRange ∧
    batchReadProcessStats fsMixed [111] = .ok ["111 10 11".toList] := by
  decide

theorem tokenize_nil : tokenize [] = [] := rfl

/-- Result of the single reader on a line whose text from two positions after
the last `)` holds at least 13 tokens. -/
theorem readProcessStat_of_tokens (fs : FileSystem) (pid : Int) (content line rest : Str) (k : Nat)
    (hopen : fs (statPath pid) = some content) (hline : getline content = some (line, rest))
    (hparen : rfind line ')' = some k) (hcount : 13 ≤ (tokenize (line.drop (k + 2))).length) :
    readProcessStat fs pid = .ok ((tokenize (line.drop (k + 2))).getD 11 [] ++ " ".toList
      ++ (tokenize (line.drop (k + 2))).getD 12 []) := by
  have hle : k + 2 ≤ line.length := by
    by_contra hgt
    have hnil : line.drop (k + 2) = [] := List.drop_eq_nil_of_le (by omega)
    rw [hnil, tokenize_nil] at hcount
    simp at hcount
  simp only [readProcessStat, hopen, hline, hparen, substr_of_le line (k + 2) hle, except_bind_ok]
  rw [if_pos hcount]

theorem mapM_ok_of_forall {α β : Type} (f : α → Result β) (g : α → β) (l : List α)
    (h : ∀ x ∈ l, f x = .ok (g x)) : l.mapM f = .ok (l.map g) := by
  induction l with
  | nil => rw [List.mapM_nil]; rfl
  | cons a as ih =>
    rw [List.mapM_cons, h a (List.mem_cons_self _ _), ih (fun x hx => h x (List.mem_cons_of_mem _ hx))]
    rfl

/-- C4 (as stated, fails): the stat line of pid 5 is `5 (a)0 1 2 ... 12`, with
13 tokens after its last `)`, and its file is present, yet the batch reader
leaves the slot empty: the character after the `)` is skipped, which removes
the token `0`. -/
theorem batchReadProcessStats_adjacent_token_slot_empty :
    fsAdjacent (statPath 5) = some "5 (a)0 1 2 3 4 5 6 7 8 9 10 11 12\n".toList ∧
    getline "5 (a)0 1 2 3 4 5 6 7 8 9 10 11 12\n".toList
      = some ("5 (a)0 1 2 3 4 5 6 7 8 9 10 11 12".toList, []) ∧
    rfind "5 (a)0 1 2 3 4 5 6 7 8 9 10 11 12".toList ')' = some 4 ∧
    (tokenize ("5 (a)0 1 2 3 4 5 6 7 8 9 10 11 12".toList.drop 5)).length = 13 ∧
    batchReadProcessStats fsAdjacent [5] = .ok [[]] := by
  decide

/-- C4 (amended): when each listed pid's stat file is absent or has a first
line whose text from two positions after its last `)` holds at least 13
tokens, the batch output has the length of the input, the slot of a pid is
empty exactly when its file is absent, and otherwise it is the decimal pid
followed by tokens 11 and 12 of that text, joined by single spaces. -/
theorem batchReadProcessStats_index_correspondence (fs : FileSystem) (pids : List Int)
    (hstate : ∀ pid ∈ pids, fs (statPath pid) = none ∨
      ∃ content line rest k, fs (statPath pid) = some content ∧
        getline content = some (line, rest) ∧ rfind line ')' = some k ∧
        13 ≤ (tokenize (line.drop (k + 2))).length) :
    ∃ out : List Str, batchReadProcessStats fs pids = .ok out ∧ out.length = pids.length ∧
      ∀ (i : Nat) (pid : Int), pids[i]? = some pid → ∃ slot : Str, out[i]? = some slot ∧
        (slot = [] ↔ fs (statPath pid) = none) ∧
        ∀ content line rest k, fs (statPath pid) = some content →
          getline content = some (line, rest) → rfind line ')' = some k →
          slot = showInt pid ++ " ".toList ++ (tokenize (line.drop (k + 2))).getD 11 []
            ++ " ".toList ++ (tokenize (line.drop (k + 2))).getD 12 [] := by
  let val : Int → Str := fun pid =>
    match readProcessStat fs pid with
    | .ok r => r
    | .error _ => []
  have hval : ∀ pid ∈ pids, (readProcessStat fs pid).map (batchSlot pid)
      = .ok (batchSlot pid (val pid)) := by
    intro pid hpid
    rcases hstate pid hpid with hnone | ⟨content, line, rest, k, hopen, hline, hparen, hcount⟩
    · have hr := readProcessStat_unopened fs pid hnone
      simp only [val, hr, except_map_ok]
    · have hr := readProcessStat_of_tokens fs pid content line rest k hopen hline hparen hcount
      simp only [val, hr, except_map_ok]
  refine ⟨pids.map (fun pid => batchSlot pid (val pid)), ?_, by simp, ?_⟩
  · rw [batchReadProcessStats_mapM]
    exact mapM_ok_of_forall _ _ pids hval
  · intro i pid hi
    have hmem : pid ∈ pids := List.getElem?_mem hi
    refine ⟨batchSlot pid (val pid), by simp [List.getElem?_map, hi], ?_, ?_⟩
    · rcases hstate pid hmem with hnone | ⟨content, line, rest, k, hopen, hline, hparen, hcount⟩
      · have hr := readProcessStat_unopened fs pid hnone
        simp [val, hr, batchSlot, hnone]
      · have hr := readProcessStat_of_tokens fs pid content line rest k hopen hline hparen hcount
        simp [val, hr, batchSlot, hopen]
    · intro content line rest k hopen hline hparen
      rcases hstate pid hmem with hnone | ⟨content', line', rest', k', hopen', hline', hparen', hcount⟩
      · rw [hnone] at hopen
        cases hopen
      · rw [hopen] at hopen'
        cases hopen'
        rw [hline] at hline'
        cases hline'
        rw [hparen] at hparen'
        cases hparen'
        have hr := readProcessStat_of_tokens fs pid content line rest k hopen hline hparen hcount
        simp [val, hr, batchSlot, List.append_assoc]

theorem batchReadProcessStats_index_correspondence_witness :
    ∃ out : List Str, batchReadProcessStats fsThree [111, 222, 333] = .ok out ∧ out.length = 3 ∧
      out[0]? = some "111 10 11".toList ∧ out[1]? = some [] ∧ out[2]? = some "333 20 21".toList := by
  have hstate : ∀ pid ∈ ([111, 222, 333] : List Int), fsThree (statPath pid) = none ∨
      ∃ content line rest k, fsThree (statPath pid) = some content ∧
        getline content = some (line, rest) ∧ rfind line ')' = some k ∧
        13 ≤ (tokenize (line.drop (k + 2))).length := by
    intro pid hpid
    simp only [List.mem_cons, List.mem_singleton, List.not_mem_nil, or_false] at hpid
    rcases hpid with rfl | rfl | rfl
    · exact Or.inr ⟨"111 (init) S 0 1 2 3 4 5 6 7 8 9 10 11 12 13\n".toList,
        "111 (init) S 0 1 2 3 4 5 6 7 8 9 10 11 12 13".toList, [], 9,
        by decide, by decide, by decide, by decide⟩
    · exact Or.inl (by decide)
    · exact Or.inr ⟨"333 (b c) R 0 1 2 3 4 5 6 7 8 9 20 21 12 13\n".toList,
        "333 (b c) R 0 1 2 3 4 5 6 7 8 9 20 21 12 13".toList, [], 8,
        by decide, by decide, by decide, by decide⟩
  obtain ⟨out, hout, hlen, hslots⟩ :=
    batchReadProcessStats_index_correspondence fsThree [111, 222, 333] hstate
  refine ⟨out, hout, hlen, ?_, ?_, ?_⟩
  · obtain ⟨slot, hs, _, hval⟩ := hslots 0 111 rfl
    rw [hs, hval "111 (init) S 0 1 2 3 4 5 6 7 8 9 10 11 12 13\n".toList
      "111 (init) S 0 1 2 3 4 5 6 7 8 9 10 11 12 13".toList [] 9 (by decide) (by decide) (by decide)]
    decide
  · obtain ⟨slot, hs, hiff, _⟩ := hslots 1 222 rfl
    rw [hs, hiff.mpr (by decide)]
  · obtain ⟨slot, hs, _, hval⟩ := hslots 2 333 rfl
    rw [hs, hval "333 (b c) R 0 1 2 3 4 5 6 7 8 9 20 21 12 13\n".toList
      "333 (b c) R 0 1 2 3 4 5 6 7 8 9 20 21 12 13".toList [] 8 (by decide) (by decide) (by decide)]
    decide

/-! ## Memory reader -/

theorem memInfoLoop_eq_scanLines : ∀ (fuel : Nat) (input : Str) (st : MemCounters),
    memInfoLoop fuel input st = scanLines (readLines fuel input) st := by
  intro fuel
  induction fuel with
  | zero => intro input st; rfl
  | succ n ih =>
    intro input st
    cases hline : getline input with
    | none => simp [memInfoLoop, readLines, scanLines, hline]
    | some lr =>
      obtain ⟨line, rest⟩ := lr
      simp only [memInfoLoop, readLines, scanLines, hline]
      by_cases hfound : st.found < 3
      · simp only [hfound, if_true]
        exact ih rest _
      · simp only [hfound, if_false]

theorem readMemInfo_eq (content : Str) :
    readMemInfo (some content)
      = .ok (showInt (scanLines (allLines content) ⟨0, 0, 0, 0⟩).memTotal ++ " ".toList
          ++ showInt (scanLines (allLines content) ⟨0, 0, 0, 0⟩).memFree ++ " ".toList
          ++ showInt (scanLines (allLines content) ⟨0, 0, 0, 0⟩).memAvailable) := by
  simp only [readMemInfo, allLines, memInfoLoop_eq_scanLines]

theorem memInfoStep_memTotal (st : MemCounters) (line : Str)
    (h : "MemTotal:".toList.isPrefixOf line = false) : (memInfoStep st line).memTotal = st.memTotal := by
  unfold memInfoStep
  rw [if_neg (by rw [h]; exact Bool.false_ne_true)]
  split_ifs <;> rfl

theorem memInfoStep_memFree (st : MemCounters) (line : Str)
    (h : "MemFree:".toList.isPrefixOf line = false) : (memInfoStep st line).memFree = st.memFree := by
  unfold memInfoStep
  by_cases h1 : "MemTotal:".toList.isPrefixOf line = true
  · rw [if_pos h1]
  · rw [if_neg h1, if_neg (by rw [h]; exact Bool.false_ne_true)]
    split_ifs <;> rfl

theorem memInfoStep_memAvailable (st : MemCounters) (line : Str)
    (h : "MemAvailable:".toList.isPrefixOf line = false) :
    (memInfoStep st line).memAvailable = st.memAvailable := by
  unfold memInfoStep
  by_cases h1 : "MemTotal:".toList.isPrefixOf line = true
  · rw [if_pos h1]
  · rw [if_neg h1]
    by_cases h2 : "MemFree:".toList.isPrefixOf line = true
    · rw [if_pos h2]
    · rw [if_neg h2, if_neg (by rw [h]; exact Bool.false_ne_true)]

theorem scanLines_memTotal (ls : List Str) :
    ∀ st : MemCounters, (∀ l ∈ ls, "MemTotal:".toList.isPrefixOf l = false) →
      (scanLines ls st).memTotal = st.memTotal := by
  induction ls with
  | nil => intro st _; rfl
  | cons l ls ih =>
    intro st h
    simp only [scanLines]
    split_ifs
    · rw [ih _ (fun x hx => h x (List.mem_cons_of_mem _ hx)),
        memInfoStep_memTotal st l (h l (List.mem_cons_self _ _))]
    · rfl

theorem scanLines_memFree (ls : List Str) :
    ∀ st : MemCounters, (∀ l ∈ ls, "MemFree:".toList.isPrefixOf l = false) →
      (scanLines ls st).memFree = st.memFree := by
  induction ls with
  | nil => intro st _; rfl
  | cons l ls ih =>
    intro st h
    simp only [scanLines]
    split_ifs
    · rw [ih _ (fun x hx => h x (List.mem_cons_of_mem _ hx)),
        memInfoStep_memFree st l (h l (List.mem_cons_self _ _))]
    · rfl

theorem scanLines_memAvailable (ls : List Str) :
    ∀ st : MemCounters, (∀ l ∈ ls, "MemAvailable:".toList.isPrefixOf l = false) →
      (scanLines ls st).memAvailable = st.memAvailable := by
  induction ls with
  | nil => intro st _; rfl
  | cons l ls ih =>
    intro st h
    simp only [scanLines]
    split_ifs
    · rw [ih _ (fun x hx => h x (List.mem_cons_of_mem _ hx)),
        memInfoStep_memAvailable st l (h l (List.mem_cons_self _ _))]
    · rfl

theorem isMemField_false (l : Str) (h : isMemField l = false) :
    "MemTotal:".toList.isPrefixOf l = false ∧ "MemFree:".toList.isPrefixOf l = false
      ∧ "MemAvailable:".toList.isPrefixOf l = false := by
  simp only [isMemField, Bool.or_eq_false_iff] at h
  exact ⟨h.1.1, h.1.2, h.2⟩

/-- C10: `readMemInfo` returns the empty string exactly when `/proc/meminfo`
cannot be opened; on an opened file it returns three decimal integers joined
by single spaces, and a field whose prefix starts no line is 0, so a file with
none of the three fields (the empty file included) gives `0 0 0`. -/
theorem readMemInfo_result_shape (content : Str) :
    (∀ file : Option Str, readMemInfo file = .ok [] ↔ file = none) ∧
    (∃ total free available : Int,
      readMemInfo (some content)
        = .ok (showInt total ++ " ".toList ++ showInt free ++ " ".toList ++ showInt available) ∧
      ((∀ l ∈ allLines content, "MemTotal:".toList.isPrefixOf l = false) → total = 0) ∧
      ((∀ l ∈ allLines content, "MemFree:".toList.isPrefixOf l = false) → free = 0) ∧
      ((∀ l ∈ allLines content, "MemAvailable:".toList.isPrefixOf l = false) → available = 0)) ∧
    ((∀ l ∈ allLines content, isMemField l = false) →
      readMemInfo (some content) = .ok "0 0 0".toList) ∧
    readMemInfo (some []) = .ok "0 0 0".toList := by
  refine ⟨?_, ?_, ?_, by decide⟩
  · intro file
    cases file with
    | none => simp [readMemInfo]
    | some c =>
      rw [readMemInfo_eq]
      simp
  · exact ⟨_, _, _, readMemInfo_eq content,
      fun h => scanLines_memTotal _ _ h,
      fun h => scanLines_memFree _ _ h,
      fun h => scanLines_memAvailable _ _ h⟩
  · intro h
    rw [readMemInfo_eq,
      scanLines_memTotal _ _ (fun l hl => (isMemField_false l (h l hl)).1),
      scanLines_memFree _ _ (fun l hl => (isMemField_false l (h l hl)).2.1),
      scanLines_memAvailable _ _ (fun l hl => (isMemField_false l (h l hl)).2.2)]
    decide

theorem readMemInfo_result_shape_witness :
    readMemInfo (some "Buffers: 5 kB\nCached: 7 kB\n".toList) = .ok "0 0 0".toList :=
  (readMemInfo_result_shape "Buffers: 5 kB\nCached: 7 kB\n".toList).2.2.1 (by decide)

theorem digitChar_spec (d : Nat) (h : d < 10) :
    isdigit (Nat.digitChar d) = true ∧ (Nat.digitChar d).toNat - 48 = d := by
  interval_cases d <;> decide

theorem digitsValue_append (ds : Str) (c : Char) :
    digitsValue (ds ++ [c]) = 10 * digitsValue ds + (c.toNat - 48) := by
  simp [digitsValue, List.foldl_append]

theorem toDigitsCore_spec : ∀ (fuel n : Nat) (acc : Str), n < fuel →
    ∃ ds : Str, Nat.toDigitsCore 10 fuel n acc = ds ++ acc ∧ ds ≠ [] ∧
      (∀ c ∈ ds, isdigit c = true) ∧ digitsValue ds = n := by
  intro fuel
  induction fuel with
  | zero => intro n acc h; omega
  | succ f ih =>
    intro n acc h
    obtain ⟨hd, hv⟩ := digitChar_spec (n % 10) (Nat.mod_lt _ (by decide))
    by_cases hq : n / 10 = 0
    · refine ⟨[Nat.digitChar (n % 10)], ?_, by simp, ?_, ?_⟩
      · simp [Nat.toDigitsCore, hq]
      · intro c hc
        simp only [List.mem_singleton] at hc
        rw [hc]
        exact hd
      · have := digitsValue_append [] (Nat.digitChar (n % 10))
        simp only [List.nil_append] at this
        rw [this, hv]
        have h0 : digitsValue [] = 0 := rfl
        rw [h0]
        omega
    · obtain ⟨ds, hds, _, hall, hval⟩ := ih (n / 10) (Nat.digitChar (n % 10) :: acc) (by omega)
      refine ⟨ds ++ [Nat.digitChar (n % 10)], ?_, by simp, ?_, ?_⟩
      · simp only [Nat.toDigitsCore, hq, if_false]
        rw [hds]
        simp
      · intro c hc
        rcases List.mem_append.mp hc with hc | hc
        · exact hall c hc
        · simp only [List.mem_singleton] at hc
          rw [hc]
          exact hd
      · rw [digitsValue_append, hval, hv]
        omega

theorem showNat_spec (n : Nat) :
    showNat n ≠ [] ∧ (∀ c ∈ showNat n, isdigit c = true) ∧ digitsValue (showNat n) = n := by
  obtain ⟨ds, hds, hne, hall, hval⟩ := toDigitsCore_spec (n + 1) n [] (Nat.lt_succ_self n)
  have heq : showNat n = ds := by
    simp only [showNat, Nat.toDigits]
    rw [hds]
    simp
  rw [heq]
  exact ⟨hne, hall, hval⟩

theorem isdigit_not_space (c : Char) (h : isdigit c = true) :
    isspace c = false ∧ c ≠ '-' ∧ c ≠ '+' := by
  refine ⟨?_, ?_, ?_⟩
  · cases hs : isspace c with
    | false => rfl
    | true =>
      simp only [isspace, Bool.or_eq_true, beq_iff_eq] at hs
      rcases hs with ((((rfl | rfl) | rfl) | rfl) | rfl) | rfl <;> exact absurd h (by decide)
  · rintro rfl
    exact absurd h (by decide)
  · rintro rfl
    exact absurd h (by decide)

theorem clampLong_of_range (z : Int) (h : LONG_MIN ≤ z ∧ z ≤ LONG_MAX) : clampLong z = z := by
  unfold clampLong
  rw [if_neg (by omega), if_neg (by omega)]

theorem scanLong_digits (ds r : Str) (hne : ds ≠ []) (hall : ∀ c ∈ ds, isdigit c = true)
    (hr : ∀ c ∈ r.head?, isdigit c = false) :
    scanLong (ds ++ r) = some (clampLong (digitsValue ds : Int)) := by
  cases ds with
  | nil => exact absurd rfl hne
  | cons d ds =>
    have hd : isdigit d = true := hall d (List.mem_cons_self _ _)
    obtain ⟨hsp, hminus, hplus⟩ := isdigit_not_space d hd
    have htake : (d :: (ds ++ r)).takeWhile isdigit = d :: ds :=
      takeWhile_append_stop (d :: ds) r hall hr
    have hskip : (d :: (ds ++ r)).dropWhile isspace = d :: (ds ++ r) := by
      simp [List.dropWhile_cons, hsp]
    have hhead : (d :: (ds ++ r)).head? = some d := rfl
    have h1 : ¬ (some d = some '-' ∨ some d = some '+') := by
      simp [hminus, hplus]
    have h2 : ¬ (some d = some '-') := by simp [hminus]
    unfold scanLong
    simp only [List.cons_append, hskip, hhead]
    simp only [if_neg h1, htake, if_neg h2]
    simp

theorem scanLong_minus_digits (ds r : Str) (hne : ds ≠ []) (hall : ∀ c ∈ ds, isdigit c = true)
    (hr : ∀ c ∈ r.head?, isdigit c = false) :
    scanLong ('-' :: (ds ++ r)) = some (clampLong (-(digitsValue ds : Int))) := by
  have htake : (ds ++ r).takeWhile isdigit = ds := takeWhile_append_stop ds r hall hr
  have hskip : ('-' :: (ds ++ r)).dropWhile isspace = '-' :: (ds ++ r) := by
    have hsp : isspace '-' = false := by decide
    simp [List.dropWhile_cons, hsp]
  have hhead : ('-' :: (ds ++ r)).head? = some '-' := rfl
  have hdrop : ('-' :: (ds ++ r)).drop 1 = ds ++ r := rfl
  unfold scanLong
  simp only [hskip, hhead, true_or, if_true, hdrop, htake, if_neg hne]

/-- The `%ld` conversion reads back a number written by `<<`. -/
theorem scanLong_showInt (z : Int) (r : Str) (hrange : LONG_MIN ≤ z ∧ z ≤ LONG_MAX)
    (hr : ∀ c ∈ r.head?, isdigit c = false) : scanLong (showInt z ++ r) = some z := by
  cases z with
  | ofNat n =>
    obtain ⟨hne, hall, hval⟩ := showNat_spec n
    have hclamp := clampLong_of_range _ hrange
    show scanLong (showNat n ++ r) = _
    rw [scanLong_digits _ r hne hall hr, hval]
    exact congrArg some hclamp
  | negSucc n =>
    obtain ⟨hne, hall, hval⟩ := showNat_spec (n + 1)
    have hclamp := clampLong_of_range _ hrange
    show scanLong ('-' :: (showNat (n + 1) ++ r)) = _
    rw [scanLong_minus_digits _ r hne hall hr, hval]
    have hneg : (-((n + 1 : Nat) : Int)) = Int.negSucc n := rfl
    rw [hneg]
    exact congrArg some hclamp

theorem showInt_head_not_space (z : Int) (r : Str) :
    (showInt z ++ r).dropWhile isspace = showInt z ++ r := by
  cases z with
  | ofNat n =>
    obtain ⟨hne, hall, _⟩ := showNat_spec n
    show (showNat n ++ r).dropWhile isspace = showNat n ++ r
    cases hds : showNat n with
    | nil => exact absurd hds hne
    | cons d ds =>
      have hd : isdigit d = true := hall d (by rw [hds]; exact List.mem_cons_self _ _)
      simp [List.dropWhile_cons, (isdigit_not_space d hd).1]
  | negSucc n =>
    have hsp : isspace '-' = false := by decide
    show ('-' :: (showNat (n + 1) ++ r)).dropWhile isspace = _
    simp [List.dropWhile_cons, hsp]
    rfl

/-- `sscanf` on a line `<field> <integer> kB` assigns the integer. -/
theorem sscanfLong_field_line (field : Str) (z old : Int) (hrange : LONG_MIN ≤ z ∧ z ≤ LONG_MAX) :
    sscanfLong field (field ++ ' ' :: (showInt z ++ " kB".toList)) old = z := by
  have hpre : field.isPrefixOf (field ++ ' ' :: (showInt z ++ " kB".toList)) = true := by
    rw [List.isPrefixOf_iff_prefix]
    exact List.prefix_append _ _
  have hsp : isspace ' ' = true := by decide
  have hskip : (' ' :: (showInt z ++ " kB".toList)).dropWhile isspace = showInt z ++ " kB".toList := by
    rw [List.dropWhile_cons, if_pos hsp, showInt_head_not_space]
  unfold sscanfLong
  rw [if_pos hpre, List.drop_left, hskip,
    scanLong_showInt z _ hrange (by intro c hc; simp at hc; subst hc; decide)]

theorem memInfoStep_not_field (st : MemCounters) (line : Str) (h : isMemField line = false) :
    memInfoStep st line = st := by
  obtain ⟨h1, h2, h3⟩ := isMemField_false line h
  unfold memInfoStep
  rw [if_neg (by rw [h1]; exact Bool.false_ne_true), if_neg (by rw [h2]; exact Bool.false_ne_true),
    if_neg (by rw [h3]; exact Bool.false_ne_true)]

theorem foldl_memInfoStep_not_field (ls : List Str) (st : MemCounters)
    (h : ∀ l ∈ ls, isMemField l = false) : ls.foldl memInfoStep st = st := by
  induction ls with
  | nil => rfl
  | cons l ls ih =>
    rw [List.foldl_cons, memInfoStep_not_field st l (h l (List.mem_cons_self _ _))]
    exact ih (fun x hx => h x (List.mem_cons_of_mem _ hx))

theorem memInfoStep_found (st : MemCounters) (line : Str) :
    (memInfoStep st line).found = st.found + (if isMemField line = true then 1 else 0) := by
  unfold memInfoStep isMemField
  generalize "MemTotal:".toList.isPrefixOf line = b1
  generalize "MemFree:".toList.isPrefixOf line = b2
  generalize "MemAvailable:".toList.isPrefixOf line = b3
  cases b1 <;> cases b2 <;> cases b3 <;> rfl

/-- While fewer than three field lines have been seen the early exit of the
loop does not cut the scan short. -/
theorem scanLines_eq_foldl (ls : List Str) :
    ∀ st : MemCounters, st.found + ls.countP isMemField ≤ 3 →
      scanLines ls st = ls.foldl memInfoStep st := by
  induction ls with
  | nil => intro st _; rfl
  | cons l ls ih =>
    intro st h
    rw [List.countP_cons] at h
    by_cases hf : st.found < 3
    · simp only [scanLines, hf, if_true, List.foldl_cons]
      apply ih
      rw [memInfoStep_found]
      omega
    · have h0 : (l :: ls).countP isMemField = 0 := by
        rw [List.countP_cons]
        omega
      have hall : ∀ x ∈ l :: ls, isMemField x = false := by
        intro x hx
        have := (List.countP_eq_zero.mp h0) x hx
        simpa using this
      simp only [scanLines, hf, if_false]
      exact (foldl_memInfoStep_not_field (l :: ls) st hall).symm

theorem foldl_memTotal (tl : Str) (t : Int) (htl : ∀ st, (memInfoStep st tl).memTotal = t)
    (hpre : "MemTotal:".toList.isPrefixOf tl = true) (ls : List Str) :
    ∀ st : MemCounters, (∀ l ∈ ls, l = tl ∨ "MemTotal:".toList.isPrefixOf l = false) →
      (ls.foldl memInfoStep st).memTotal = if tl ∈ ls then t else st.memTotal := by
  induction ls with
  | nil => intro st _; simp
  | cons l ls ih =>
    intro st h
    rw [List.foldl_cons, ih _ (fun x hx => h x (List.mem_cons_of_mem _ hx))]
    rcases h l (List.mem_cons_self _ _) with rfl | hl
    · simp [htl]
    · have hne : tl ≠ l := by
        intro e
        rw [e, hl] at hpre
        exact Bool.false_ne_true hpre
      rw [memInfoStep_memTotal st l hl]
      simp [hne]

theorem foldl_memFree (fl : Str) (f : Int) (hfl : ∀ st, (memInfoStep st fl).memFree = f)
    (hpre : "MemFree:".toList.isPrefixOf fl = true) (ls : List Str) :
    ∀ st : MemCounters, (∀ l ∈ ls, l = fl ∨ "MemFree:".toList.isPrefixOf l = false) →
      (ls.foldl memInfoStep st).memFree = if fl ∈ ls then f else st.memFree := by
  induction ls with
  | nil => intro st _; simp
  | cons l ls ih =>
    intro st h
    rw [List.foldl_cons, ih _ (fun x hx => h x (List.mem_cons_of_mem _ hx))]
    rcases h l (List.mem_cons_self _ _) with rfl | hl
    · simp [hfl]
    · have hne : fl ≠ l := by
        intro e
        rw [e, hl] at hpre
        exact Bool.false_ne_true hpre
      rw [memInfoStep_memFree st l hl]
      simp [hne]

theorem foldl_memAvailable (al : Str) (a : Int) (hal : ∀ st, (memInfoStep st al).memAvailable = a)
    (hpre : "MemAvailable:".toList.isPrefixOf al = true) (ls : List Str) :
    ∀ st : MemCounters, (∀ l ∈ ls, l = al ∨ "MemAvailable:".toList.isPrefixOf l = false) →
      (ls.foldl memInfoStep st).memAvailable = if al ∈ ls then a else st.memAvailable := by
  induction ls with
  | nil => intro st _; simp
  | cons l ls ih =>
    intro st h
    rw [List.foldl_cons, ih _ (fun x hx => h x (List.mem_cons_of_mem _ hx))]
    rcases h l (List.mem_cons_self _ _) with rfl | hl
    · simp [hal]
    · have hne : al ≠ l := by
        intro e
        rw [e, hl] at hpre
        exact Bool.false_ne_true hpre
      rw [memInfoStep_memAvailable st l hl]
      simp [hne]

theorem totalLine_facts (x : Str) :
    "MemTotal:".toList.isPrefixOf ("MemTotal: ".toList ++ x) = true ∧
    "MemFree:".toList.isPrefixOf ("MemTotal: ".toList ++ x) = false ∧
    "MemAvailable:".toList.isPrefixOf ("MemTotal: ".toList ++ x) = false :=
  ⟨rfl, rfl, rfl⟩

theorem freeLine_facts (x : Str) :
    "MemTotal:".toList.isPrefixOf ("MemFree: ".toList ++ x) = false ∧
    "MemFree:".toList.isPrefixOf ("MemFree: ".toList ++ x) = true ∧
    "MemAvailable:".toList.isPrefixOf ("MemFree: ".toList ++ x) = false :=
  ⟨rfl, rfl, rfl⟩

theorem availableLine_facts (x : Str) :
    "MemTotal:".toList.isPrefixOf ("MemAvailable: ".toList ++ x) = false ∧
    "MemFree:".toList.isPrefixOf ("MemAvailable: ".toList ++ x) = false ∧
    "MemAvailable:".toList.isPrefixOf ("MemAvailable: ".toList ++ x) = true :=
  ⟨rfl, rfl, rfl⟩

theorem memInfoStep_totalLine (st : MemCounters) (t : Int) (h : LONG_MIN ≤ t ∧ t ≤ LONG_MAX) :
    (memInfoStep st ("MemTotal: ".toList ++ showInt t ++ " kB".toList)).memTotal = t := by
  rw [List.append_assoc]
  unfold memInfoStep
  rw [if_pos (totalLine_facts _).1]
  exact sscanfLong_field_line "MemTotal:".toList t st.memTotal h

theorem memInfoStep_freeLine (st : MemCounters) (f : Int) (h : LONG_MIN ≤ f ∧ f ≤ LONG_MAX) :
    (memInfoStep st ("MemFree: ".toList ++ showInt f ++ " kB".toList)).memFree = f := by
  rw [List.append_assoc]
  unfold memInfoStep
  rw [if_neg (by rw [(freeLine_facts _).1]; exact Bool.false_ne_true), if_pos (freeLine_facts _).2.1]
  exact sscanfLong_field_line "MemFree:".toList f st.memFree h

theorem memInfoStep_availableLine (st : MemCounters) (a : Int) (h : LONG_MIN ≤ a ∧ a ≤ LONG_MAX) :
    (memInfoStep st ("MemAvailable: ".toList ++ showInt a ++ " kB".toList)).memAvailable = a := by
  rw [List.append_assoc]
  unfold memInfoStep
  rw [if_neg (by rw [(availableLine_facts _).1]; exact Bool.false_ne_true),
    if_neg (by rw [(availableLine_facts _).2.1]; exact Bool.false_ne_true),
    if_pos (availableLine_facts _).2.2]
  exact sscanfLong_field_line "MemAvailable:".toList a st.memAvailable h

/-- C9: when the lines of `/proc/meminfo` are, in any order, one line
`MemTotal: <total> kB`, one line `MemFree: <free> kB`, one line
`MemAvailable: <available> kB` and any lines that start with none of the three
prefixes, `readMemInfo` returns `<total> <free> <available>`. -/
theorem readMemInfo_order_independent (content : Str) (total free available : Int)
    (others : List Str)
    (htotal : LONG_MIN ≤ total ∧ total ≤ LONG_MAX)
    (hfree : LONG_MIN ≤ free ∧ free ≤ LONG_MAX)
    (havailable : LONG_MIN ≤ available ∧ available ≤ LONG_MAX)
    (hothers : ∀ l ∈ others, isMemField l = false)
    (hlines : (allLines content).Perm
      (("MemTotal: ".toList ++ showInt total ++ " kB".toList)
        :: ("MemFree: ".toList ++ showInt free ++ " kB".toList)
        :: ("MemAvailable: ".toList ++ showInt available ++ " kB".toList) :: others)) :
    readMemInfo (some content)
      = .ok (showInt total ++ " ".toList ++ showInt free ++ " ".toList ++ showInt available) := by
  have htl := totalLine_facts (showInt total ++ " kB".toList)
  have hfl := freeLine_facts (showInt free ++ " kB".toList)
  have hal := availableLine_facts (showInt available ++ " kB".toList)
  simp only [← List.append_assoc] at htl hfl hal
  have hmem : ∀ l ∈ allLines content,
      l = "MemTotal: ".toList ++ showInt total ++ " kB".toList ∨
      l = "MemFree: ".toList ++ showInt free ++ " kB".toList ∨
      l = "MemAvailable: ".toList ++ showInt available ++ " kB".toList ∨ l ∈ others := by
    intro l hl
    simpa using hlines.mem_iff.mp hl
  have hcount : (allLines content).countP isMemField = 3 := by
    rw [hlines.countP_eq]
    have h0 : others.countP isMemField = 0 :=
      List.countP_eq_zero.mpr (fun l hl => by simp [hothers l hl])
    simp [List.countP_cons, isMemField, htl.1, hfl.2.1, hal.2.2, h0]
  rw [readMemInfo_eq, scanLines_eq_foldl _ _ (by simp [hcount])]
  rw [foldl_memTotal _ total (fun st => memInfoStep_totalLine st total htotal) htl.1 _ _
      (fun l hl => by
        rcases hmem l hl with h | h | h | h
        · exact Or.inl h
        · exact Or.inr (by rw [h]; exact hfl.1)
        · exact Or.inr (by rw [h]; exact hal.1)
        · exact Or.inr (isMemField_false l (hothers l h)).1),
    foldl_memFree _ free (fun st => memInfoStep_freeLine st free hfree) hfl.2.1 _ _
      (fun l hl => by
        rcases hmem l hl with h | h | h | h
        · exact Or.inr (by rw [h]; exact htl.2.1)
        · exact Or.inl h
        · exact Or.inr (by rw [h]; exact hal.2.1)
        · exact Or.inr (isMemField_false l (hothers l h)).2.1),
    foldl_memAvailable _ available (fun st => memInfoStep_availableLine st available havailable)
      hal.2.2 _ _
      (fun l hl => by
        rcases hmem l hl with h | h | h | h
        · exact Or.inr (by rw [h]; exact htl.2.2)
        · exact Or.inr (by rw [h]; exact hfl.2.2)
        · exact Or.inl h
        · exact Or.inr (isMemField_false l (hothers l h)).2.2)]
  rw [if_pos (hlines.mem_iff.mpr (by simp)), if_pos (hlines.mem_iff.mpr (by simp)),
    if_pos (hlines.mem_iff.mpr (by simp))]

theorem readMemInfo_order_independent_witness :
    readMemInfo (some "MemFree: 200 kB\nMemTotal: 1000 kB\nSwapTotal: 0 kB\nMemAvailable: 150 kB\n".toList)
      = .ok "1000 200 150".toList :=
  readMemInfo_order_independent
    "MemFree: 200 kB\nMemTotal: 1000 kB\nSwapTotal: 0 kB\nMemAvailable: 150 kB\n".toList
    1000 200 150 ["SwapTotal: 0 kB".toList]
    (by decide) (by decide) (by decide) (by decide) (by decide)

/-! ## Core count query -/

/-- C11 (as stated, fails): a line `MemTotal: -5 kB` makes the first counter
of the result negative. -/
theorem readMemInfo_negative_counter :
    readMemInfo (some "MemTotal: -5 kB\nMemFree: 200 kB\nMemAvailable: 150 kB\n".toList)
      = .ok "-5 200 150".toList := by
  decide

/-- C15: with the line `MemTotal:` three times before the other two fields,
the loop stops after the third line, when only one of the three fields has
been seen: the `MemFree:` and `MemAvailable:` lines are not scanned and their
counters stay 0. -/
theorem readMemInfo_stops_on_repeated_field :
    allLines "MemTotal: 1 kB\nMemTotal: 2 kB\nMemTotal: 3 kB\nMemFree: 5 kB\nMemAvailable: 6 kB\n".toList
      = ["MemTotal: 1 kB".toList, "MemTotal: 2 kB".toList, "MemTotal: 3 kB".toList,
         "MemFree: 5 kB".toList, "MemAvailable: 6 kB".toList] ∧
    readMemInfo (some
      "MemTotal: 1 kB\nMemTotal: 2 kB\nMemTotal: 3 kB\nMemFree: 5 kB\nMemAvailable: 6 kB\n".toList)
      = .ok "3 0 0".toList ∧
    readMemInfo (some "MemTotal: 3 kB\nMemFree: 5 kB\nMemAvailable: 6 kB\n".toList)
      = .ok "3 5 6".toList := by
  decide

theorem dropWhile_dropWhile (p : Char → Bool) (s : Str) :
    (s.dropWhile p).dropWhile p = s.dropWhile p := by
  induction s with
  | nil => rfl
  | cons c cs ih =>
    by_cases hc : p c = true
    · simp only [List.dropWhile_cons, hc, if_true]
      exact ih
    · have hd : (c :: cs).dropWhile p = c :: cs := by
        rw [List.dropWhile_cons, if_neg hc]
      rw [hd, hd]

theorem clampLong_nonneg (z : Int) (h : 0 ≤ z) : 0 ≤ clampLong z := by
  have hmax : (0 : Int) ≤ LONG_MAX := by decide
  have hmin : LONG_MIN ≤ (0 : Int) := by decide
  unfold clampLong
  split_ifs <;> omega

/-- Without a minus sign in front of the digits `%ld` reads no negative number. -/
theorem scanLong_nonneg (input : Str) (h : (input.dropWhile isspace).head? ≠ some '-') (v : Int)
    (hv : scanLong input = some v) : 0 ≤ v := by
  unfold scanLong at hv
  simp only [h, false_or, if_false] at hv
  split_ifs at hv
  · cases hv
    exact clampLong_nonneg _ (Int.ofNat_nonneg _)
  · cases hv
    exact clampLong_nonneg _ (Int.ofNat_nonneg _)

theorem sscanfLong_nonneg (field line : Str) (old : Int) (hold : 0 ≤ old)
    (h : field.isPrefixOf line = true →
      ((line.drop field.length).dropWhile isspace).head? ≠ some '-') :
    0 ≤ sscanfLong field line old := by
  unfold sscanfLong
  by_cases hp : field.isPrefixOf line = true
  · rw [if_pos hp]
    cases hs : scanLong ((line.drop field.length).dropWhile isspace) with
    | none => exact hold
    | some v =>
      exact scanLong_nonneg _ (by rw [dropWhile_dropWhile]; exact h hp) v hs
  · rw [if_neg hp]
    exact hold

theorem memInfoStep_nonneg (st : MemCounters) (line : Str)
    (hst : 0 ≤ st.memTotal ∧ 0 ≤ st.memFree ∧ 0 ≤ st.memAvailable)
    (hline : ∀ field ∈ memFieldNames, field.isPrefixOf line = true →
      ((line.drop field.length).dropWhile isspace).head? ≠ some '-') :
    0 ≤ (memInfoStep st line).memTotal ∧ 0 ≤ (memInfoStep st line).memFree
      ∧ 0 ≤ (memInfoStep st line).memAvailable := by
  have h1 := sscanfLong_nonneg "MemTotal:".toList line st.memTotal hst.1
    (hline _ (by simp [memFieldNames]))
  have h2 := sscanfLong_nonneg "MemFree:".toList line st.memFree hst.2.1
    (hline _ (by simp [memFieldNames]))
  have h3 := sscanfLong_nonneg "MemAvailable:".toList line st.memAvailable hst.2.2
    (hline _ (by simp [memFieldNames]))
  unfold memInfoStep
  split_ifs
  · exact ⟨h1, hst.2.1, hst.2.2⟩
  · exact ⟨hst.1, h2, hst.2.2⟩
  · exact ⟨hst.1, hst.2.1, h3⟩
  · exact hst

theorem scanLines_nonneg (ls : List Str) :
    ∀ st : MemCounters, (0 ≤ st.memTotal ∧ 0 ≤ st.memFree ∧ 0 ≤ st.memAvailable) →
      (∀ l ∈ ls, ∀ field ∈ memFieldNames, field.isPrefixOf l = true →
        ((l.drop field.length).dropWhile isspace).head? ≠ some '-') →
      0 ≤ (scanLines ls st).memTotal ∧ 0 ≤ (scanLines ls st).memFree
        ∧ 0 ≤ (scanLines ls st).memAvailable := by
  induction ls with
  | nil => intro st hst _; exact hst
  | cons l ls ih =>
    intro st hst h
    simp only [scanLines]
    split_ifs
    · exact ih _ (memInfoStep_nonneg st l hst (h l (List.mem_cons_self _ _)))
        (fun x hx => h x (List.mem_cons_of_mem _ hx))
    · exact hst

/-- C11 (amended): when no line of `/proc/meminfo` that starts with one of
the three prefixes has a `-` as the first non-blank character after the
prefix, the three integers of the result are non-negative. -/
theorem readMemInfo_counters_nonneg (content : Str)
    (hsign : ∀ l ∈ allLines content, ∀ field ∈ memFieldNames, field.isPrefixOf l = true →
      ((l.drop field.length).dropWhile isspace).head? ≠ some '-') :
    ∃ total free available : Int, 0 ≤ total ∧ 0 ≤ free ∧ 0 ≤ available ∧
      readMemInfo (some content)
        = .ok (showInt total ++ " ".toList ++ showInt free ++ " ".toList ++ showInt available) := by
  obtain ⟨h1, h2, h3⟩ := scanLines_nonneg (allLines content) ⟨0, 0, 0, 0⟩
    ⟨le_refl _, le_refl _, le_refl _⟩ hsign
  exact ⟨_, _, _, h1, h2, h3, readMemInfo_eq content⟩

theorem readMemInfo_counters_nonneg_witness :
    ∃ total free available : Int, 0 ≤ total ∧ 0 ≤ free ∧ 0 ≤ available ∧
      readMemInfo (some "MemFree: 200 kB\nBuffers: -1 kB\nMemTotal: 1000 kB\n".toList)
        = .ok (showInt total ++ " ".toList ++ showInt free ++ " ".toList ++ showInt available) :=
  readMemInfo_counters_nonneg "MemFree: 200 kB\nBuffers: -1 kB\nMemTotal: 1000 kB\n".toList
    (by decide)

/-! ## Shape of the process accounting results -/

/-- A token delivered by `iss >> token` is non-empty and holds no whitespace. -/
theorem extractToken_token (input token rest : Str) (h : extractToken input = some (token, rest)) :
    token ≠ [] ∧ ∀ c ∈ token, isspace c = false := by
  unfold extractToken at h
  have hhead := List.head?_dropWhile_not isspace input
  cases hd : input.dropWhile isspace with
  | nil => rw [hd] at h; cases h
  | cons c cs =>
    rw [hd] at h hhead
    simp only [List.head?_cons] at hhead
    simp only [Option.some.injEq, Prod.mk.injEq] at h
    rw [← h.1]
    constructor
    · rw [List.takeWhile_cons, if_pos (by simp [hhead])]
      exact List.cons_ne_nil _ _
    · intro x hx
      have := List.mem_takeWhile_imp hx
      simpa using this

theorem readTokens_token : ∀ (fuel : Nat) (s : Str), ∀ t ∈ readTokens fuel s,
    t ≠ [] ∧ ∀ c ∈ t, isspace c = false := by
  intro fuel
  induction fuel with
  | zero => intro s t ht; simp [readTokens] at ht
  | succ n ih =>
    intro s t ht
    cases hx : extractToken s with
    | none => simp [readTokens, hx] at ht
    | some tr =>
      obtain ⟨token, rest⟩ := tr
      simp only [readTokens, hx, List.mem_cons] at ht
      rcases ht with rfl | ht
      · exact extractToken_token s _ rest hx
      · exact ih rest t ht

theorem tokenize_getD_token (s : Str) (i : Nat) (h : i < (tokenize s).length) :
    (tokenize s).getD i [] ≠ [] ∧ ∀ c ∈ (tokenize s).getD i [], isspace c = false := by
  rw [List.getD_eq_getElem _ _ h]
  exact readTokens_token _ s _ (List.getElem_mem h)

/-- A non-empty result of the single reader comes from the only path that
writes one: tokens 11 and 12 of the text from two positions after the last `)`. -/
theorem readProcessStat_nonempty_inv (fs : FileSystem) (pid : Int) (r : Str)
    (h : readProcessStat fs pid = .ok r) (hne : r ≠ []) :
    ∃ content line rest k, fs (statPath pid) = some content ∧
      getline content = some (line, rest) ∧ rfind line ')' = some k ∧
      13 ≤ (tokenize (line.drop (k + 2))).length ∧
      r = (tokenize (line.drop (k + 2))).getD 11 [] ++ " ".toList
        ++ (tokenize (line.drop (k + 2))).getD 12 [] := by
  cases hopen : fs (statPath pid) with
  | none =>
    rw [readProcessStat_unopened fs pid hopen] at h
    cases h
    exact absurd rfl hne
  | some content =>
    cases hline : getline content with
    | none =>
      simp only [readProcessStat, hopen, hline] at h
      cases h
      exact absurd rfl hne
    | some lr =>
      obtain ⟨line, rest⟩ := lr
      cases hparen : rfind line ')' with
      | none =>
        simp only [readProcessStat, hopen, hline, hparen] at h
        cases h
        exact absurd rfl hne
      | some k =>
        by_cases hlen : k + 2 ≤ line.length
        · by_cases hcount : 13 ≤ (tokenize (line.drop (k + 2))).length
          · have hr := readProcessStat_of_tokens fs pid content line rest k hopen hline hparen hcount
            rw [hr] at h
            cases h
            exact ⟨content, line, rest, k, rfl, hline, hparen, hcount, rfl⟩
          · have hr := readProcessStat_few_tokens fs pid content line rest k hopen hline hparen hlen
              (by omega)
            rw [hr] at h
            cases h
            exact absurd rfl hne
        · simp only [readProcessStat, hopen, hline, hparen,
            substr_of_gt line (k + 2) (by omega), except_bind_error] at h
          cases h

/-- C12 (as stated, fails): on the line `8 (sh) S a b c d e f g h i j user sys`
the result is the non-empty string `user sys`, which holds no digit. -/
theorem readProcessStat_copies_words :
    readProcessStat fsWordFields 8 = .ok "user sys".toList ∧
    (∀ c ∈ "user sys".toList, isdigit c = false) := by
  decide

/-- C12 (amended): a non-empty result of `readProcessStat` is token 11, one
space and token 12 of the text that begins two positions after the last `)`
of the stat line, copied as they stand; both are non-empty and free of
whitespace. -/
theorem readProcessStat_result_is_two_tokens (fs : FileSystem) (pid : Int) (r : Str)
    (h : readProcessStat fs pid = .ok r) (hne : r ≠ []) :
    ∃ content line rest k, fs (statPath pid) = some content ∧
      getline content = some (line, rest) ∧ rfind line ')' = some k ∧
      r = (tokenize (line.drop (k + 2))).getD 11 [] ++ " ".toList
        ++ (tokenize (line.drop (k + 2))).getD 12 [] ∧
      (tokenize (line.drop (k + 2))).getD 11 [] ≠ [] ∧
      (tokenize (line.drop (k + 2))).getD 12 [] ≠ [] ∧
      (∀ c ∈ (tokenize (line.drop (k + 2))).getD 11 [], isspace c = false) ∧
      (∀ c ∈ (tokenize (line.drop (k + 2))).getD 12 [], isspace c = false) := by
  obtain ⟨content, line, rest, k, hopen, hline, hparen, hcount, hr⟩ :=
    readProcessStat_nonempty_inv fs pid r h hne
  obtain ⟨ha1, ha2⟩ := tokenize_getD_token (line.drop (k + 2)) 11 (by omega)
  obtain ⟨hb1, hb2⟩ := tokenize_getD_token (line.drop (k + 2)) 12 (by omega)
  exact ⟨content, line, rest, k, hopen, hline, hparen, hr, ha1, hb1, ha2, hb2⟩

theorem readProcessStat_result_is_two_tokens_witness :
    ∃ content line rest k, fsWordFields (statPath 8) = some content ∧
      getline content = some (line, rest) ∧ rfind line ')' = some k ∧
      "user sys".toList = (tokenize (line.drop (k + 2))).getD 11 [] ++ " ".toList
        ++ (tokenize (line.drop (k + 2))).getD 12 [] ∧
      (tokenize (line.drop (k + 2))).getD 11 [] ≠ [] ∧
      (tokenize (line.drop (k + 2))).getD 12 [] ≠ [] ∧
      (∀ c ∈ (tokenize (line.drop (k + 2))).getD 11 [], isspace c = false) ∧
      (∀ c ∈ (tokenize (line.drop (k + 2))).getD 12 [], isspace c = false) :=
  readProcessStat_result_is_two_tokens fsWordFields 8 "user sys".toList (by decide) (by decide)

theorem showInt_token (z : Int) : showInt z ≠ [] ∧ ∀ c ∈ showInt z, isspace c = false := by
  cases z with
  | ofNat n =>
    obtain ⟨hne, hall, _⟩ := showNat_spec n
    exact ⟨hne, fun c hc => (isdigit_not_space c (hall c hc)).1⟩
  | negSucc n =>
    obtain ⟨_, hall, _⟩ := showNat_spec (n + 1)
    refine ⟨List.cons_ne_nil _ _, ?_⟩
    intro c hc
    rcases List.mem_cons.mp hc with rfl | hc
    · decide
    · exact (isdigit_not_space c (hall c hc)).1

/-- Three tokens joined by single spaces tokenise into themselves. -/
theorem tokenize_three (p a b : Str) (hp : p ≠ [] ∧ ∀ c ∈ p, isspace c = false)
    (ha : a ≠ [] ∧ ∀ c ∈ a, isspace c = false) (hb : b ≠ [] ∧ ∀ c ∈ b, isspace c = false) :
    tokenize (p ++ " ".toList ++ a ++ " ".toList ++ b) = [p, a, b] := by
  have hsp : ∀ c ∈ [' '], isspace c = true := by decide
  have hhead : ∀ (x : Str), ∀ c ∈ (' ' :: x).head?, isspace c = true := by
    intro x c hc
    simp only [List.head?_cons, Option.mem_def, Option.some.injEq] at hc
    rw [← hc]
    decide
  have h1 : extractToken (p ++ " ".toList ++ a ++ " ".toList ++ b)
      = some (p, ' ' :: (a ++ ' ' :: b)) := by
    have := extractToken_field [] p (' ' :: (a ++ ' ' :: b)) (by simp) hp.2 hp.1 (hhead _)
    simpa using this
  have h2 : extractToken (' ' :: (a ++ ' ' :: b)) = some (a, ' ' :: b) :=
    extractToken_field [' '] a (' ' :: b) hsp ha.2 ha.1 (hhead _)
  have h3 : extractToken (' ' :: b) = some (b, []) := by
    have := extractToken_field [' '] b [] hsp hb.2 hb.1 (by simp)
    simpa using this
  have h4 : extractToken [] = none := rfl
  have hpl : 0 < p.length := List.length_pos.mpr hp.1
  have hal : 0 < a.length := List.length_pos.mpr ha.1
  have hbl : 0 < b.length := List.length_pos.mpr hb.1
  obtain ⟨n, hn⟩ : ∃ n, (p ++ " ".toList ++ a ++ " ".toList ++ b).length + 1 = n + 4 :=
    ⟨(p ++ " ".toList ++ a ++ " ".toList ++ b).length - 3, by
      simp only [List.length_append]
      omega⟩
  rw [tokenize, hn]
  simp only [readTokens, h1, h2, h3, h4]

theorem mapM_ok_getElem? {α β : Type} (f : α → Result β) :
    ∀ (l : List α) (out : List β), l.mapM f = .ok out →
      ∀ (i : Nat) (x : α), l[i]? = some x → ∃ y, f x = .ok y ∧ out[i]? = some y := by
  intro l
  induction l with
  | nil => intro out _ i x hx; simp at hx
  | cons a as ih =>
    intro out h i x hx
    rw [List.mapM_cons] at h
    cases hfa : f a with
    | error e =>
      rw [hfa, except_bind_error] at h
      cases h
    | ok y =>
      rw [hfa, except_bind_ok] at h
      cases hm : as.mapM f with
      | error e =>
        rw [hm, except_bind_error] at h
        cases h
      | ok ys =>
        rw [hm, except_bind_ok] at h
        cases h
        cases i with
        | zero =>
          simp only [List.getElem?_cons_zero, Option.some.injEq] at hx
          subst hx
          exact ⟨y, hfa, List.getElem?_cons_zero⟩
        | succ j =>
          simp only [List.getElem?_cons_succ] at hx ⊢
          exact ih ys hm j x hx

/-- C16: a non-empty result of `readProcessStat` is `a ++ " " ++ b` with `a`
and `b` non-empty and free of whitespace; a non-empty slot of the batch
reader is the decimal pid, a space and that same `a ++ " " ++ b` of the
single reader, and tokenises into exactly the three tokens pid, `a`, `b`. -/
theorem process_result_shape (fs : FileSystem) (pid : Int) :
    (∀ r : Str, readProcessStat fs pid = .ok r → r ≠ [] →
      ∃ a b : Str, r = a ++ " ".toList ++ b ∧ a ≠ [] ∧ b ≠ [] ∧
        (∀ c ∈ a, isspace c = false) ∧ (∀ c ∈ b, isspace c = false)) ∧
    (∀ (pids : List Int) (out : List Str) (i : Nat) (slot : Str),
      batchReadProcessStats fs pids = .ok out → pids[i]? = some pid → out[i]? = some slot →
      slot ≠ [] →
      ∃ a b : Str, readProcessStat fs pid = .ok (a ++ " ".toList ++ b) ∧ a ≠ [] ∧ b ≠ [] ∧
        (∀ c ∈ a, isspace c = false) ∧ (∀ c ∈ b, isspace c = false) ∧
        slot = showInt pid ++ " ".toList ++ a ++ " ".toList ++ b ∧
        tokenize slot = [showInt pid, a, b]) := by
  have hsingle : ∀ r : Str, readProcessStat fs pid = .ok r → r ≠ [] →
      ∃ a b : Str, r = a ++ " ".toList ++ b ∧ a ≠ [] ∧ b ≠ [] ∧
        (∀ c ∈ a, isspace c = false) ∧ (∀ c ∈ b, isspace c = false) := by
    intro r h hne
    obtain ⟨content, line, rest, k, _, _, _, hcount, hr⟩ :=
      readProcessStat_nonempty_inv fs pid r h hne
    obtain ⟨ha1, ha2⟩ := tokenize_getD_token (line.drop (k + 2)) 11 (by omega)
    obtain ⟨hb1, hb2⟩ := tokenize_getD_token (line.drop (k + 2)) 12 (by omega)
    exact ⟨_, _, hr, ha1, hb1, ha2, hb2⟩
  refine ⟨hsingle, ?_⟩
  intro pids out i slot hbatch hpid hslot hne
  rw [batchReadProcessStats_mapM] at hbatch
  obtain ⟨y, hy, hout⟩ := mapM_ok_getElem? _ pids out hbatch i pid hpid
  rw [hslot] at hout
  cases hout
  cases hr : readProcessStat fs pid with
  | error e =>
    rw [hr, except_map_error] at hy
    cases hy
  | ok r =>
    rw [hr, except_map_ok] at hy
    cases hy
    have hrne : r ≠ [] := by
      intro h0
      apply hne
      simp [batchSlot, h0]
    obtain ⟨a, b, hab, ha1, hb1, ha2, hb2⟩ := hsingle r hr hrne
    have hslotEq : batchSlot pid r = showInt pid ++ " ".toList ++ a ++ " ".toList ++ b := by
      simp [batchSlot, hrne, hab, List.append_assoc]
    refine ⟨a, b, by rw [hab], ha1, hb1, ha2, hb2, hslotEq, ?_⟩
    rw [hslotEq]
    exact tokenize_three (showInt pid) a b (showInt_token pid) ⟨ha1, ha2⟩ ⟨hb1, hb2⟩

theorem process_result_shape_witness :
    ∃ a b : Str, readProcessStat fsThree 333 = .ok (a ++ " ".toList ++ b) ∧ a ≠ [] ∧ b ≠ [] ∧
      (∀ c ∈ a, isspace c = false) ∧ (∀ c ∈ b, isspace c = false) ∧
      "333 20 21".toList = showInt 333 ++ " ".toList ++ a ++ " ".toList ++ b ∧
      tokenize "333 20 21".toList = [showInt 333, a, b] :=
  (process_result_shape fsThree 333).2 [111, 222, 333] ["111 10 11".toList, [], "333 20 21".toList]
    2 "333 20 21".toList (by decide) (by decide) (by decide) (by decide)

/-! ## The character after the closing parenthesis -/

/-- C17: when a character `c` follows the last `)` of the stat line, the
fields that `readProcessStat` and the batch reader use are the tokens of the
text `after` that begins two positions after that `)`: `c` is skipped
whatever it is and belongs to no token. -/
theorem readProcessStat_skips_char_after_paren (fs : FileSystem) (pid : Int)
    (content rest before after : Str) (c : Char)
    (hopen : fs (statPath pid) = some content)
    (hline : getline content = some (before ++ ')' :: c :: after, rest))
    (hlast : ')' ∉ c :: after) :
    readProcessStat fs pid
      = .ok (if 13 ≤ (tokenize after).length then
          (tokenize after).getD 11 [] ++ " ".toList ++ (tokenize after).getD 12 [] else []) ∧
    batchReadProcessStats fs [pid]
      = .ok [if 13 ≤ (tokenize after).length then
          showInt pid ++ " ".toList ++ (tokenize after).getD 11 [] ++ " ".toList
            ++ (tokenize after).getD 12 [] else []] := by
  have hparen := rfind_append_cons before (c :: after) ')' hlast
  have hdrop : (before ++ ')' :: c :: after).drop (before.length + 2) = after := by
    simp
  have hlen : before.length + 2 ≤ (before ++ ')' :: c :: after).length := by
    simp only [List.length_append, List.length_cons]
    omega
  have hsingle : readProcessStat fs pid
      = .ok (if 13 ≤ (tokenize after).length then
          (tokenize after).getD 11 [] ++ " ".toList ++ (tokenize after).getD 12 [] else []) := by
    by_cases hcount : 13 ≤ (tokenize after).length
    · have h := readProcessStat_of_tokens fs pid content _ rest _ hopen hline hparen
        (by rw [hdrop]; exact hcount)
      rw [h, hdrop, if_pos hcount]
    · have h := readProcessStat_few_tokens fs pid content _ rest _ hopen hline hparen hlen
        (by rw [hdrop]; omega)
      rw [h, if_neg hcount]
  refine ⟨hsingle, ?_⟩
  rw [batchReadProcessStats_mapM, List.mapM_cons, List.mapM_nil, hsingle, except_map_ok]
  by_cases hcount : 13 ≤ (tokenize after).length
  · simp [hcount, batchSlot, pure, Except.pure, bind, Except.bind, List.append_assoc]
  · simp [hcount, batchSlot, pure, Except.pure, bind, Except.bind]

theorem readProcessStat_skips_char_after_paren_witness :
    readProcessStat fsAdjacentWord 9 = .ok "11 12".toList ∧
    batchReadProcessStats fsAdjacentWord [9] = .ok ["9 11 12".toList] :=
  readProcessStat_skips_char_after_paren fsAdjacentWord 9
    "9 (a)xy 1 2 3 4 5 6 7 8 9 10 11 12 13\n".toList [] "9 (a".toList
    "y 1 2 3 4 5 6 7 8 9 10 11 12 13".toList 'x' (by decide) (by decide) (by decide)

/-! ## Kernel field numbers -/

theorem head_renderFields_spaced (fields : List (Str × Str)) (trail : Str)
    (hf : ∀ p ∈ fields, p.1 ≠ [] ∧ (∀ c ∈ p.1, isspace c = true))
    (htrail : ∀ c ∈ trail, isspace c = true) :
    ∀ c ∈ (renderFields fields ++ trail).head?, isspace c = true := by
  cases fields with
  | nil =>
    intro c hc
    simp only [renderFields, List.nil_append] at hc
    cases trail with
    | nil => simp at hc
    | cons b bs =>
      simp at hc
      subst hc
      exact htrail _ (List.mem_cons_self _ _)
  | cons p ps =>
    intro c hc
    obtain ⟨h1, h2⟩ := hf p (List.mem_cons_self _ _)
    cases hp : p.1 with
    | nil => exact absurd hp h1
    | cons b bs =>
      simp [renderFields, hp] at hc
      subst hc
      exact h2 _ (by rw [hp]; exact List.mem_cons_self _ _)

/-- Tokens of a text made of whitespace-separated words, whatever characters
other than whitespace the words hold. -/
theorem readTokens_spaced (fields : List (Str × Str)) (trail : Str)
    (hf : ∀ p ∈ fields, p.1 ≠ [] ∧ (∀ c ∈ p.1, isspace c = true) ∧ p.2 ≠ []
      ∧ (∀ c ∈ p.2, isspace c = false))
    (htrail : ∀ c ∈ trail, isspace c = true) :
    ∀ (fuel : Nat) (ws t : Str), fields.length + 1 ≤ fuel → (∀ c ∈ ws, isspace c = true) →
      (∀ c ∈ t, isspace c = false) → t ≠ [] →
      readTokens fuel (ws ++ (t ++ (renderFields fields ++ trail))) = t :: fields.map Prod.snd := by
  induction fields with
  | nil =>
    intro fuel ws t hfuel hws ht hne
    obtain ⟨n, rfl⟩ : ∃ n, fuel = n + 1 := ⟨fuel - 1, by simp at hfuel; omega⟩
    have hx := extractToken_field ws t (renderFields [] ++ trail) hws ht hne
      (head_renderFields_spaced [] trail (by simp) htrail)
    simp only [readTokens, hx]
    simp [renderFields, readTokens_blank n trail htrail]
  | cons p ps ih =>
    intro fuel ws t hfuel hws ht hne
    obtain ⟨n, rfl⟩ : ∃ n, fuel = n + 1 := ⟨fuel - 1, by simp at hfuel; omega⟩
    have hx := extractToken_field ws t (renderFields (p :: ps) ++ trail) hws ht hne
      (head_renderFields_spaced (p :: ps) trail (fun q hq => ⟨(hf q hq).1, (hf q hq).2.1⟩) htrail)
    simp only [readTokens, hx]
    obtain ⟨_, h2, h3, h4⟩ := hf p (List.mem_cons_self _ _)
    have hrec := ih (fun q hq => hf q (List.mem_cons_of_mem _ hq)) n p.1 p.2
      (by simp at hfuel ⊢; omega) h2 h4 h3
    simp only [renderFields, List.append_assoc, List.map_cons]
    rw [hrec]

/-- Plain tokenisation of a whole stat line `<pid> (<name>) t0 t1 ...`. -/
theorem tokenize_stat_line (pidText sep name trail : Str) (fields : List (Str × Str))
    (hpid : pidText ≠ [] ∧ ∀ c ∈ pidText, isspace c = false)
    (hsep : sep ≠ [] ∧ ∀ c ∈ sep, isspace c = true)
    (hname : ∀ c ∈ name, isspace c = false)
    (hfields : ∀ p ∈ fields, WellFormedField p)
    (htrail : ∀ c ∈ trail, isspace c = true) :
    tokenize (pidText ++ sep ++ '(' :: name ++ ')' :: (renderFields fields ++ trail))
      = pidText :: ('(' :: name ++ [')']) :: fields.map Prod.snd := by
  have hshape : pidText ++ sep ++ '(' :: name ++ ')' :: (renderFields fields ++ trail)
      = [] ++ (pidText ++ (renderFields ((sep, '(' :: name ++ [')']) :: fields) ++ trail)) := by
    simp [renderFields, List.append_assoc]
  have hall : ∀ p ∈ (sep, '(' :: name ++ [')']) :: fields,
      p.1 ≠ [] ∧ (∀ c ∈ p.1, isspace c = true) ∧ p.2 ≠ [] ∧ (∀ c ∈ p.2, isspace c = false) := by
    intro p hp
    rcases List.mem_cons.mp hp with rfl | hp
    · refine ⟨hsep.1, hsep.2, List.cons_ne_nil _ _, ?_⟩
      intro c hc
      simp only [List.mem_cons, List.mem_append, List.not_mem_nil, or_false] at hc
      rcases hc with (rfl | hc) | rfl
      · decide
      · exact hname c hc
      · decide
    · obtain ⟨h1, h2, h3, h4⟩ := hfields p hp
      exact ⟨h1, h2, h3, fun c hc => (h4 c hc).1⟩
  have hlen := length_le_renderFields fields hfields
  have hpl : 0 < pidText.length := List.length_pos.mpr hpid.1
  have hsl : 0 < sep.length := List.length_pos.mpr hsep.1
  rw [tokenize, hshape]
  rw [readTokens_spaced _ trail hall htrail _ [] pidText
    (by
      simp only [List.nil_append, List.length_append, List.length_cons, renderFields]
      omega)
    (by simp) hpid.2 hpid.1]
  rfl

/-- C14 (as stated, fails): on the line `9 (a)xy 1 2 ... 13` the name `a` has
no whitespace and no parentheses and the line has 15 whitespace-separated
fields, of which field 14 is `12` and field 15 is `13`; the reader returns
`11 12`, because the token `(a)xy` loses `x` and leaves the token `y`. -/
theorem readProcessStat_adjacent_word_shifts_fields :
    fsAdjacentWord (statPath 9) = some "9 (a)xy 1 2 3 4 5 6 7 8 9 10 11 12 13\n".toList ∧
    getline "9 (a)xy 1 2 3 4 5 6 7 8 9 10 11 12 13\n".toList
      = some ("9 (a)xy 1 2 3 4 5 6 7 8 9 10 11 12 13".toList, []) ∧
    (tokenize "9 (a)xy 1 2 3 4 5 6 7 8 9 10 11 12 13".toList).length = 15 ∧
    (tokenize "9 (a)xy 1 2 3 4 5 6 7 8 9 10 11 12 13".toList).getD 13 [] = "12".toList ∧
    (tokenize "9 (a)xy 1 2 3 4 5 6 7 8 9 10 11 12 13".toList).getD 14 [] = "13".toList ∧
    readProcessStat fsAdjacentWord 9 = .ok "11 12".toList := by
  decide

/-- C14 (amended): on a stat line `<pid> (<name>) t0 t1 ...` whose pid and
name hold no whitespace, whose `)` after the name is the last one of the line
and is followed by whitespace, and which has at least 15 whitespace-separated
fields counting the pid as field 1, `readProcessStat` returns field 14, a
space and field 15 of the plain whitespace tokenisation of the whole line. -/
theorem readProcessStat_kernel_fields (fs : FileSystem) (pid : Int)
    (content rest pidText sep name trail : Str) (fields : List (Str × Str))
    (hopen : fs (statPath pid) = some content)
    (hline : getline content
      = some (pidText ++ sep ++ '(' :: name ++ ')' :: (renderFields fields ++ trail), rest))
    (hpid : pidText ≠ [] ∧ ∀ c ∈ pidText, isspace c = false)
    (hsep : sep ≠ [] ∧ ∀ c ∈ sep, isspace c = true)
    (hname : ∀ c ∈ name, isspace c = false)
    (hfields : ∀ p ∈ fields, WellFormedField p)
    (htrail : ∀ c ∈ trail, isspace c = true)
    (hcount : 13 ≤ fields.length) :
    15 ≤ (tokenize (pidText ++ sep ++ '(' :: name ++ ')' :: (renderFields fields ++ trail))).length ∧
    readProcessStat fs pid
      = .ok ((tokenize (pidText ++ sep ++ '(' :: name ++ ')' :: (renderFields fields ++ trail))).getD 13 []
          ++ " ".toList
          ++ (tokenize (pidText ++ sep ++ '(' :: name ++ ')' :: (renderFields fields ++ trail))).getD 14 []) := by
  have hne : fields ≠ [] := by
    intro h
    rw [h] at hcount
    simp at hcount
  have hwhole := tokenize_stat_line pidText sep name trail fields hpid hsep hname hfields htrail
  have hparen := rfind_append_cons (pidText ++ sep ++ '(' :: name) (renderFields fields ++ trail) ')'
    (not_mem_renderFields fields trail hfields htrail)
  have hdrop : (pidText ++ sep ++ '(' :: name ++ ')' :: (renderFields fields ++ trail)).drop
      ((pidText ++ sep ++ '(' :: name).length + 2) = (renderFields fields ++ trail).drop 1 := by
    rw [show (pidText ++ sep ++ '(' :: name).length + 2
        = (pidText ++ sep ++ '(' :: name ++ [')']).length + 1 by
      rw [List.length_append (pidText ++ sep ++ '(' :: name) [')']]; rfl,
      ← List.drop_drop]
    congr 1
    rw [show pidText ++ sep ++ '(' :: name ++ ')' :: (renderFields fields ++ trail)
      = (pidText ++ sep ++ '(' :: name ++ [')']) ++ (renderFields fields ++ trail) by simp]
    exact List.drop_left _ _
  have htok := tokenize_after_name fields trail hfields htrail hne
  have hres := readProcessStat_of_tokens fs pid content _ rest _ hopen hline hparen
    (by rw [hdrop, htok]; simpa using hcount)
  rw [hdrop, htok] at hres
  rw [hwhole]
  refine ⟨by simp only [List.length_cons, List.length_map]; omega, ?_⟩
  rw [hres]
  rfl

theorem readProcessStat_kernel_fields_witness :
    15 ≤ (tokenize "111 (init) S 0 1 2 3 4 5 6 7 8 9 10 11 12 13".toList).length ∧
    readProcessStat fsThree 111
      = .ok ((tokenize "111 (init) S 0 1 2 3 4 5 6 7 8 9 10 11 12 13".toList).getD 13 []
          ++ " ".toList
          ++ (tokenize "111 (init) S 0 1 2 3 4 5 6 7 8 9 10 11 12 13".toList).getD 14 []) :=
  readProcessStat_kernel_fields fsThree 111
    "111 (init) S 0 1 2 3 4 5 6 7 8 9 10 11 12 13\n".toList [] "111".toList " ".toList
    "init".toList []
    [(" ".toList, "S".toList), (" ".toList, "0".toList), (" ".toList, "1".toList),
     (" ".toList, "2".toList), (" ".toList, "3".toList), (" ".toList, "4".toList),
     (" ".toList, "5".toList), (" ".toList, "6".toList), (" ".toList, "7".toList),
     (" ".toList, "8".toList), (" ".toList, "9".toList), (" ".toList, "10".toList),
     (" ".toList, "11".toList), (" ".toList, "12".toList), (" ".toList, "13".toList)]
    (by decide) (by decide) (by decide) (by decide) (by decide) (by decide) (by decide) (by decide)

end NativeProcReader
